import Mathlib

/-!
Verification of the livery/group selection controller of company_gui.cpp
(struct SelectCompanyLiveryWindow): the group-hierarchy flattener
(BuildGroupList / AddChildren), the selection state machine (OnClick,
OnInvalidateData, OnDropdownSelect) and the colour-dropdown builder
(ShowColourDropDownMenu).

The C++ state and helpers are shallowly embedded: externally owned pool
records (groups, companies) become lists of structures, machine integers
become Nat (all quantities involved are small enough that no 32-bit wrap
can occur on the modelled paths), and the window fields become an explicit
state structure.
-/

set_option linter.unusedVariables false

namespace OTTD

/-! ## Constants (from livery.h, group.h, gfx_type.h as used by company_gui.cpp) -/

/-- LiveryScheme LS_DEFAULT. -/
def LS_DEFAULT : Nat := 0

/-- LiveryScheme LS_END: 23 schemes total (the table _livery_class in
company_gui.cpp:577-584 has 23 entries). -/
def LS_END : Nat := 23

/-- LiveryClass LC_OTHER. -/
def LC_OTHER : Nat := 0

/-- LiveryClass LC_GROUP_RAIL; group classes are LC_GROUP_RAIL..LC_GROUP_AIRCRAFT = 5..8. -/
def LC_GROUP_RAIL : Nat := 5

/-- COLOUR_END: 16 palette colours. -/
def COLOUR_END : Nat := 16

/-- INVALID_GROUP sentinel (GroupID is uint16). -/
def INVALID_GROUP : Nat := 0xFFFF

/-- INVALID_COLOUR sentinel (byte). -/
def INVALID_COLOUR : Nat := 0xFF

/-- The table _livery_class (company_gui.cpp:577-584): livery class of each scheme:
LC_OTHER, 13 x LC_RAIL, 2 x LC_ROAD, 2 x LC_SHIP, 3 x LC_AIRCRAFT, 2 x LC_ROAD. -/
def liveryClassTbl : List Nat :=
  [0,
   1, 1, 1, 1, 1, 1, 1, 1, 1, 1, 1, 1, 1,
   2, 2,
   3, 3,
   4, 4, 4,
   2, 2]

/-- _livery_class[s] as a function. -/
def liveryClassOf (s : Nat) : Nat := liveryClassTbl.getD s 0

/-! ## Data model -/

/-- struct Livery: two colour slots plus the 2-bit in_use mask. -/
structure Livery where
  colour1 : Nat
  colour2 : Nat
  in_use : Nat
deriving DecidableEq

/-- A group record as read by this window: pool index, parent link, owner,
vehicle type, livery, and the externally resolved display name
(GetString(STR_GROUP_NAME) with the group as parameter, an external
formatting call per the data-provider interface). -/
structure Group where
  index : Nat
  parent : Nat
  owner : Nat
  vehicle_type : Nat
  livery : Livery
  name : String
deriving DecidableEq

/-- A company record as read by this window: pool index, primary company
colour, and the per-scheme livery array. -/
structure Company where
  index : Nat
  colour : Nat
  livery : Nat → Livery

/-! ## Natural-order comparator

strnatcmp itself lives outside src/ (OpenTTD string library).
Modelled from the spec: compares case-insensitively, runs of digits are
compared as numeric magnitude rather than lexicographically. We tokenise a
name into digit runs (numeric value) and lowercased characters and compare
token lists lexicographically. -/

/-- A token of the natural-order key: a digit run (by value) or a single
lowercased character (by code point). -/
inductive Tok where
  | num : Nat → Tok
  | chr : Nat → Tok
deriving DecidableEq

/-- Numeric value of a digit character. -/
def digitVal (c : Char) : Nat := c.toNat - 48

/-- Modelled from the spec: tokeniser for the natural-order comparison
(strnatcmp is not in src/). The accumulator holds the value of the digit
run being scanned. -/
def natKeyGo : Option Nat → List Char → List Tok
  | some n, [] => [Tok.num n]
  | none, [] => []
  | acc, c :: cs =>
    if c.isDigit then natKeyGo (some ((acc.getD 0) * 10 + digitVal c)) cs
    else
      match acc with
      | some n => Tok.num n :: Tok.chr c.toLower.toNat :: natKeyGo none cs
      | none => Tok.chr c.toLower.toNat :: natKeyGo none cs

/-- Modelled from the spec: the natural-order sort key of a display name. -/
def natKey (s : String) : List Tok := natKeyGo none s.data

/-- Strict order on tokens: digit runs by value, characters by (lowercased)
code point; a digit run sorts before a character. -/
def tokLt : Tok → Tok → Bool
  | Tok.num a, Tok.num b => a < b
  | Tok.num _, Tok.chr _ => true
  | Tok.chr _, Tok.num _ => false
  | Tok.chr a, Tok.chr b => a < b

/-- Lexicographic strict order on token lists. -/
def lexLt : List Tok → List Tok → Bool
  | _, [] => false
  | [], _ :: _ => true
  | a :: as, b :: bs => tokLt a b || (a == b && lexLt as bs)

/-- The comparison lambda passed to Sort in BuildGroupList
(company_gui.cpp:715-731): strnatcmp on the resolved names; if that ties
(r == 0), ascending group index. -/
def groupLess (a b : Group) : Bool :=
  if natKey a.name = natKey b.name then decide (a.index < b.index)
  else lexLt (natKey a.name) (natKey b.name)

/-- The matching non-strict order: a may stay before b exactly when the
sort lambda does not order b strictly before a. -/
def groupLE (a b : Group) : Prop := groupLess b a = false

instance : DecidableRel groupLE := fun a b => by
  unfold groupLE; infer_instance

/-- The staged/sorted list of BuildGroupList: std::sort with the strict
weak order groupLess, modelled as insertion sort by groupLE (under distinct
ids the comparator is a strict total order, so the sorted arrangement is
unique and the embedding is exact). -/
def sortGroups (l : List Group) : List Group := List.insertionSort groupLE l

/-! ## The flattener -/

/-- AddChildren (company_gui.cpp:683-691): for each record of source whose
parent field equals the given parent, emit it at the given indent and
recurse into its children at indent + 1. The C++ recursion carries no fuel;
the embedding adds an explicit fuel bounding the recursion depth, and the
fuel-indifference theorem for C10 shows any fuel above the source length
yields the same list, i.e. the C++ recursion terminates at bounded depth. -/
def AddChildren (source : List Group) : Nat → Nat → Nat → List (Group × Nat)
  | _, _, 0 => []
  | parent, indent, fuel + 1 =>
    (source.filter (fun g => g.parent == parent)).flatMap
      (fun g => (g, indent) :: AddChildren source g.index (indent + 1) fuel)

/-- The staging set of BuildGroupList (company_gui.cpp:700-708): all pool
records with matching owner and vehicle type (vtype = livery_class -
LC_GROUP_RAIL, company_gui.cpp:702). -/
def stagedGroups (pool : List Group) (owner lclass : Nat) : List Group :=
  pool.filter (fun g => g.owner == owner && g.vehicle_type == lclass - LC_GROUP_RAIL)

/-- BuildGroupList (company_gui.cpp:693-738) after ForceRebuild: for a group
class, stage, sort and flatten from the INVALID_GROUP root at indent 0; for
a scheme class the list stays empty. Pairs carry (record, indent), merging
the two parallel vectors groups / indents that AddChildren pushes in
lockstep. -/
def BuildGroupList (pool : List Group) (owner lclass : Nat) : List (Group × Nat) :=
  if LC_GROUP_RAIL ≤ lclass then
    let sorted := sortGroups (stagedGroups pool owner lclass)
    AddChildren sorted INVALID_GROUP 0 (sorted.length + 1)
  else []

/-! ## Parent walks (proof infrastructure for the flattener) -/

/-- The parent of the record with the given id, if any (unique when ids are
distinct). -/
def parentOf (l : List Group) (q : Nat) : Option Nat :=
  (l.find? (fun g => g.index == q)).map Group.parent

/-- k steps of the upward parent walk. -/
def stepN (l : List Group) : Nat → Nat → Option Nat
  | 0, q => some q
  | k + 1, q => (parentOf l q).bind (stepN l k)

/-- Does the upward parent chain from q reach the INVALID_GROUP root within
n steps? Decides which records the flattener emits. -/
def reachesRoot (l : List Group) : Nat → Nat → Bool
  | q, 0 => q == INVALID_GROUP
  | q, n + 1 =>
    q == INVALID_GROUP ||
      match l.find? (fun g => g.index == q) with
      | some g => reachesRoot l g.parent n
      | none => false

/-- The ancestry of a recursive AddChildren call: the current parent
argument together with the stack of enclosing parent arguments, each step
justified by an emitted record of source. -/
inductive Chain (source : List Group) : Nat → List Nat → Prop
  | root : Chain source INVALID_GROUP []
  | step {p : Nat} {rest : List Nat} {g : Group} :
      Chain source p rest → g ∈ source → g.parent = p →
      Chain source g.index (p :: rest)

/-- Count of source records whose id does not occur in the call ancestry:
the fuel measure of AddChildren. -/
def availCount (source : List Group) (chain : List Nat) : Nat :=
  source.countP (fun g => decide (g.index ∉ chain))

/-! ## Window state and the selection state machine -/

/-- The mutable window fields of SelectCompanyLiveryWindow that the
modelled handlers read or write (company_gui.cpp:624-630): the selection
(scheme bitmask or group id), the active livery class, the flattened list
(groups plus indents zipped), and the row count. -/
structure LiveryState where
  sel : Nat
  livery_class : Nat
  groups : List (Group × Nat)
  rows : Nat
deriving DecidableEq

/-- Default element for modelling operator[] on the groups vector. -/
def dummyNode : Group × Nat := (⟨0, 0, 0, 0, ⟨0, 0, 0⟩, ""⟩, 0)

/-- ToggleBit on a bitmask. -/
def toggleBit (x i : Nat) : Nat := x ^^^ 2 ^ i

/-- HasBit. -/
def hasBit (x i : Nat) : Bool := Nat.testBit x i

/-- The rows of the scheme-class matrix, in drawing order: schemes in enum
order whose livery class matches and whose used_liveries bit is set
(DrawWidget, company_gui.cpp:959-963; SetRows counts the same schemes,
company_gui.cpp:742-748). -/
def schemeRows (lclass used : Nat) : List Nat :=
  (List.range LS_END).filter (fun s => liveryClassOf s == lclass && hasBit used s)

/-- The row-to-scheme walking loop of OnClick on the matrix
(company_gui.cpp:1028-1032): j starts at the row index and is bumped past
every inactive scheme not above it. -/
def rowToSchemeGo (lclass used : Nat) (scheme j : Nat) : Nat :=
  if scheme ≤ j ∧ scheme < LS_END then
    rowToSchemeGo lclass used (scheme + 1)
      (if liveryClassOf scheme == lclass && hasBit used scheme then j else j + 1)
  else j
termination_by LS_END - scheme
decreasing_by simp_wf; omega

/-- Row index to scheme-enum value (OnClick, company_gui.cpp:1028-1033). -/
def rowToScheme (lclass used row : Nat) : Nat := rowToSchemeGo lclass used 0 row

/-- OnClick on WID_SCL_MATRIX (company_gui.cpp:1023-1045): out-of-range rows
return early; scheme classes translate the row to a scheme and toggle
(ctrl) or replace the selection bitmask; group classes select the row's
group id. -/
def OnClickMatrix (used : Nat) (ctrl : Bool) (row : Nat) (st : LiveryState) : LiveryState :=
  if st.rows ≤ row then st
  else if st.livery_class < LC_GROUP_RAIL then
    let j := rowToScheme st.livery_class used row
    { st with sel := if ctrl then toggleBit st.sel j else 2 ^ j }
  else
    { st with sel := (st.groups.getD row dummyNode).1.index }

/-- Group::IsValidID: the id belongs to a live pool record. -/
def isValidID (pool : List Group) (q : Nat) : Bool :=
  pool.any (fun g => g.index == q)

/-- OnInvalidateData for data = an affected vehicle type, gui scope
(company_gui.cpp:1084-1098): when the window shows the matching group
class, force a rebuild, recompute rows, and reset the selection to the
first row / INVALID_GROUP only when the selected id is no longer pool-valid
(Group::IsValidID). -/
def OnInvalidateVehicleType (pool : List Group) (owner vtype : Nat)
    (st : LiveryState) : LiveryState :=
  if st.livery_class == vtype + LC_GROUP_RAIL then
    let groups' := BuildGroupList pool owner st.livery_class
    let sel' :=
      if !isValidID pool st.sel then
        match groups'.head? with
        | some pr => pr.1.index
        | none => INVALID_GROUP
      else st.sel
    { st with groups := groups', rows := groups'.length, sel := sel' }
  else st

/-! ## Colour dropdown builder -/

/-- One dropdown row: the result value (a colour index, or inherited colour
+ COLOUR_END for the synthetic default entry) and the masked flag. -/
structure DropItem where
  result : Nat
  masked : Bool
deriving DecidableEq

/-- The used_colours accumulation of ShowColourDropDownMenu
(company_gui.cpp:640-645): only for the primary slot of a scheme class with
the DEFAULT scheme bit selected; collects every company's primary colour
except the local company's. -/
def usedColours (companies : List Company) (local_ lclass sel : Nat)
    (primary : Bool) : Nat :=
  if lclass < LC_GROUP_RAIL ∧ hasBit sel LS_DEFAULT ∧ primary then
    companies.foldl (fun acc c => if c.index ≠ local_ then acc ||| 2 ^ c.colour else acc) 0
  else 0

/-- The scheme-scan loop of ShowColourDropDownMenu (company_gui.cpp:652-654):
first scheme below LS_END whose selection bit is set, else LS_END. -/
def lowestSchemeGo (sel s : Nat) : Nat :=
  if s < LS_END then (if hasBit sel s then s else lowestSchemeGo sel (s + 1))
  else s
termination_by LS_END - s
decreasing_by simp_wf; omega

/-- Lines 652-655: the representative scheme: the first selected one, or
LS_DEFAULT when the bitmask is empty. -/
def lowestScheme (sel : Nat) : Nat :=
  let r := lowestSchemeGo sel 0
  if r = LS_END then LS_DEFAULT else r

/-- Lines 649-667: the representative livery and the inherited (default)
reference livery; none models the crash-free precondition that
Group::Get succeeds on the selected group and on its parent link. -/
def liveryAndDefault (comp : Company) (pool : List Group) (lclass sel : Nat) :
    Option (Livery × Option Livery) :=
  if lclass < LC_GROUP_RAIL then
    let scheme := lowestScheme sel
    some (comp.livery scheme, if scheme ≠ LS_DEFAULT then some (comp.livery LS_DEFAULT) else none)
  else
    match pool.find? (fun g => g.index == sel) with
    | none => none
    | some g =>
      if g.parent == INVALID_GROUP then some (g.livery, some (comp.livery LS_DEFAULT))
      else
        match pool.find? (fun h => h.index == g.parent) with
        | none => none
        | some pg => some (g.livery, some pg.livery)

/-- Line 679: the preselected entry: the livery's own colour when there is
no inherited reference or the slot's in_use bit is set, else the synthetic
default entry (inherited colour + COLOUR_END). -/
def dropPreselect (liv : Livery) (dl : Option Livery) (primary : Bool) : Nat :=
  match dl with
  | none => if primary then liv.colour1 else liv.colour2
  | some d =>
    if hasBit liv.in_use (if primary then 0 else 1) then
      (if primary then liv.colour1 else liv.colour2)
    else (if primary then d.colour1 else d.colour2) + COLOUR_END

/-- ShowColourDropDownMenu (company_gui.cpp:633-681): returns the dropdown
item list and the preselected result value. -/
def ShowColourDropDownMenu (companies : List Company) (pool : List Group)
    (window_number local_ lclass sel : Nat) (primary : Bool) :
    Option (List DropItem × Nat) :=
  let used := usedColours companies local_ lclass sel primary
  match companies.find? (fun c => c.index == window_number) with
  | none => none
  | some comp =>
    match liveryAndDefault comp pool lclass sel with
    | none => none
    | some (liv, dl) =>
      let items :=
        (match dl with
         | some d => [⟨(if primary then d.colour1 else d.colour2) + COLOUR_END, false⟩]
         | none => []) ++
        (List.range COLOUR_END).map (fun i => DropItem.mk i (hasBit used i))
      some (items, dropPreselect liv dl primary)

/-! ## Colour commit -/

/-- The fire-and-forget command requests OnDropdownSelect can issue. -/
inductive LiveryCommand where
  | setCompanyColour : Nat → Bool → Nat → LiveryCommand
  | setGroupLivery : Nat → Bool → Nat → LiveryCommand
deriving DecidableEq

/-- OnDropdownSelect (company_gui.cpp:1054-1073): non-local windows do
nothing; a result at or above COLOUR_END becomes INVALID_COLOUR; a scheme
class posts one command per scheme whose selection bit is set or (with
ctrl) which is active for the class; a group class posts one command for
the selected group. The window state is returned untouched: the handler
only posts commands. -/
def OnDropdownSelect (used : Nat) (ctrl : Bool) (window_number local_ : Nat)
    (st : LiveryState) (primary : Bool) (index : Nat) :
    LiveryState × List LiveryCommand :=
  if window_number ≠ local_ then (st, [])
  else
    let idx := if COLOUR_END ≤ index then INVALID_COLOUR else index
    if st.livery_class < LC_GROUP_RAIL then
      (st, ((List.range LS_END).filter
          (fun s => hasBit st.sel s ||
            (ctrl && (liveryClassOf s == st.livery_class) && hasBit used s))).map
        (fun s => LiveryCommand.setCompanyColour s primary idx))
    else (st, [LiveryCommand.setGroupLivery st.sel primary idx])

/-! ## Pool hypotheses

Live pool records have pairwise distinct ids and no record carries the
INVALID_GROUP sentinel as its own id (pool indices are below the pool's
size bound; INVALID_GROUP is the uint16 maximum). -/

/-- Distinct ids and no record with the sentinel id. -/
def GoodPool (pool : List Group) : Prop :=
  (pool.map Group.index).Nodup ∧ ∀ g ∈ pool, g.index ≠ INVALID_GROUP

/-- The orphan predicate of the claims: a record whose parent is non-ROOT
but absent from the given (filtered) set. -/
def orphanB (l : List Group) (g : Group) : Bool :=
  g.parent != INVALID_GROUP && !(l.any (fun h => h.index == g.parent))

/-! ## Concrete records used in witnesses and counterexamples -/

/-- An all-zero livery. -/
def livW : Livery := ⟨0, 0, 0⟩

/-- Root group named Zeta (spec scenario). -/
def gZeta : Group := ⟨10, INVALID_GROUP, 0, 0, livW, "Zeta"⟩

/-- Root group named Alpha (spec scenario). -/
def gAlpha : Group := ⟨11, INVALID_GROUP, 0, 0, livW, "Alpha"⟩

/-- Child of Alpha named Mid (spec scenario). -/
def gMid : Group := ⟨12, 11, 0, 0, livW, "Mid"⟩

/-- The spec scenario pool: flattens to Alpha@0, Mid@1, Zeta@0. -/
def poolW : List Group := [gZeta, gAlpha, gMid]

/-- A record whose parent id 5 belongs to no record: an orphan. -/
def gOrphanC6 : Group := ⟨1, 5, 0, 0, livW, "a"⟩

/-- A child of the orphan: its parent is present, yet it is unreachable. -/
def gChildC6 : Group := ⟨2, 1, 0, 0, livW, "b"⟩

/-- Pool whose flattened list is empty though only one record is an orphan. -/
def poolC6 : List Group := [gOrphanC6, gChildC6]

/-- A record that is its own parent. -/
def gSelfLoop : Group := ⟨4, 4, 0, 0, livW, "s"⟩

/-- A plain root record. -/
def gRootW : Group := ⟨3, INVALID_GROUP, 0, 0, livW, "r"⟩

/-- Pool with a self-parent cycle next to a normal root. -/
def poolC10 : List Group := [gSelfLoop, gRootW]

/-- Pool for the invalidation scenario: an orphaned-but-alive record with id
1 (its parent 7 was deleted) next to a normal root with id 3. -/
def poolC2 : List Group := [⟨1, 7, 0, 0, livW, "b"⟩, gRootW]

/-- Window state selecting group 1 in the rail group class. -/
def stC2 : LiveryState := ⟨1, LC_GROUP_RAIL, [], 0⟩

/-- used_liveries mask activating rail schemes 1, 5 and 9. -/
def usedC4 : Nat := 2 ^ 1 + 2 ^ 5 + 2 ^ 9

/-- Rail-class window state with three populated scheme rows. -/
def stC4 : LiveryState := ⟨0, 1, [], 3⟩

/-- Rail-class window state used for the out-of-range click. -/
def stC9 : LiveryState := ⟨2, 1, [], 3⟩

/-- The edited (and local) company: primary colour 2; DEFAULT scheme livery
(5, 6) with nothing in use, every other scheme livery (7, 8) with colour1
in use. -/
def compEdited : Company := ⟨0, 2, fun s => if s = 0 then ⟨5, 6, 0⟩ else ⟨7, 8, 1⟩⟩

/-- Another company whose primary colour is 4. -/
def compRed : Company := ⟨1, 4, fun _ => ⟨0, 0, 0⟩⟩

/-- The company pool for the dropdown examples. -/
def companiesW : List Company := [compEdited, compRed]

/-- Expected dropdown rows for the DEFAULT-scheme primary dropdown of the
edited company: no synthetic entry, colour 4 masked. -/
def itemsC5 : List DropItem :=
  (List.range COLOUR_END).map (fun i => ⟨i, hasBit (2 ^ 4) i⟩)

/-- Expected dropdown rows for the scheme-1 primary dropdown of the edited
company: a synthetic entry mirroring inherited colour 5, nothing masked. -/
def itemsC7 : List DropItem :=
  ⟨5 + COLOUR_END, false⟩ :: (List.range COLOUR_END).map (fun i => ⟨i, false⟩)

/-- A root group with livery (7, 8), colour1 in use. -/
def gC7 : Group := ⟨1, INVALID_GROUP, 0, 0, ⟨7, 8, 1⟩, "x"⟩

/-- Pool holding only that group. -/
def poolC7 : List Group := [gC7]

/-! ## Order lemmas for the comparator -/

theorem tokLt_irrefl (a : Tok) : tokLt a a = false := by
  cases a <;> simp [tokLt]

theorem tokLt_trans {a b c : Tok} (h1 : tokLt a b = true) (h2 : tokLt b c = true) :
    tokLt a c = true := by
  cases a <;> cases b <;> cases c <;> simp_all [tokLt] <;> omega

theorem tokLt_eq_of_not {a b : Tok} (h1 : tokLt a b = false) (h2 : tokLt b a = false) :
    a = b := by
  cases a <;> cases b <;> simp_all [tokLt] <;> omega

theorem lexLt_irrefl (l : List Tok) : lexLt l l = false := by
  induction l with
  | nil => rfl
  | cons a as ih => simp [lexLt, tokLt_irrefl, ih]

theorem lexLt_trans {a b c : List Tok} (h1 : lexLt a b = true) (h2 : lexLt b c = true) :
    lexLt a c = true := by
  induction a generalizing b c with
  | nil =>
    cases b with
    | nil => simp [lexLt] at h1
    | cons y ys =>
      cases c with
      | nil => simp [lexLt] at h2
      | cons z zs => simp [lexLt]
  | cons x xs ih =>
    cases b with
    | nil => simp [lexLt] at h1
    | cons y ys =>
      cases c with
      | nil => simp [lexLt] at h2
      | cons z zs =>
        simp only [lexLt, Bool.or_eq_true, Bool.and_eq_true, beq_iff_eq] at h1 h2 ⊢
        rcases h1 with h1 | ⟨rfl, h1⟩
        · rcases h2 with h2 | ⟨rfl, h2⟩
          · exact Or.inl (tokLt_trans h1 h2)
          · exact Or.inl h1
        · rcases h2 with h2 | ⟨rfl, h2⟩
          · exact Or.inl h2
          · exact Or.inr ⟨rfl, ih h1 h2⟩

theorem lexLt_eq_of_not {a b : List Tok} (h1 : lexLt a b = false) (h2 : lexLt b a = false) :
    a = b := by
  induction a generalizing b with
  | nil =>
    cases b with
    | nil => rfl
    | cons y ys => simp [lexLt] at h1
  | cons x xs ih =>
    cases b with
    | nil => simp [lexLt] at h2
    | cons y ys =>
      simp only [lexLt, Bool.or_eq_false_iff, Bool.and_eq_false_iff, beq_eq_false_iff_ne,
        ne_eq] at h1 h2
      obtain ⟨hxy, h1'⟩ := h1
      obtain ⟨hyx, h2'⟩ := h2
      have hx : x = y := tokLt_eq_of_not hxy hyx
      subst hx
      rcases h1' with h1' | h1' <;> rcases h2' with h2' | h2'
      · exact absurd rfl h1'
      · exact absurd rfl h1'
      · exact absurd rfl h2'
      · exact congrArg (x :: ·) (ih h1' h2')

theorem lexLt_asymm {a b : List Tok} (h1 : lexLt a b = true) : lexLt b a = false := by
  by_contra h
  have h2 : lexLt b a = true := by revert h; cases lexLt b a <;> simp
  have := lexLt_trans h1 h2
  rw [lexLt_irrefl] at this
  exact Bool.false_ne_true this

/-- From not-less and inequality, strictly greater. -/
theorem lexLt_true_of_not {a b : List Tok} (h : lexLt b a = false) (hne : a ≠ b) :
    lexLt a b = true := by
  cases hab : lexLt a b with
  | false => exact absurd (lexLt_eq_of_not hab h) hne
  | true => rfl

/-- Totality of the sorting order. -/
theorem groupLE_total (a b : Group) : groupLE a b ∨ groupLE b a := by
  unfold groupLE groupLess
  by_cases hk : natKey a.name = natKey b.name
  · simp only [hk, eq_self_iff_true, if_true, decide_eq_false_iff_not, not_lt]
    omega
  · have hk' : ¬ natKey b.name = natKey a.name := fun h => hk h.symm
    rw [if_neg hk', if_neg hk]
    cases hb : lexLt (natKey b.name) (natKey a.name) with
    | false => exact Or.inl rfl
    | true => exact Or.inr (lexLt_asymm hb)

/-- Transitivity of the sorting order. -/
theorem groupLE_trans (a b c : Group) (h1 : groupLE a b) (h2 : groupLE b c) : groupLE a c := by
  unfold groupLE groupLess at *
  by_cases hab : natKey a.name = natKey b.name
  · by_cases hbc : natKey b.name = natKey c.name
    · rw [if_pos hab.symm] at h1
      rw [if_pos hbc.symm] at h2
      rw [if_pos (hbc.symm.trans hab.symm)]
      simp only [decide_eq_false_iff_not, not_lt] at h1 h2 ⊢
      omega
    · have hca : ¬ natKey c.name = natKey a.name := fun h => hbc ((h.trans hab).symm)
      rw [if_neg hca]
      rw [if_neg (fun h => hbc h.symm)] at h2
      rw [hab]
      exact h2
  · by_cases hbc : natKey b.name = natKey c.name
    · have hca : ¬ natKey c.name = natKey a.name := fun h => hab ((hbc.trans h).symm)
      rw [if_neg hca]
      rw [if_neg (fun h => hab h.symm)] at h1
      rw [← hbc]
      exact h1
    · rw [if_neg (fun h => hab h.symm)] at h1
      rw [if_neg (fun h => hbc h.symm)] at h2
      by_cases hca : natKey c.name = natKey a.name
      · exfalso
        rw [hca] at h2
        exact hab (lexLt_eq_of_not h1 h2).symm
      · rw [if_neg hca]
        have hab1 : lexLt (natKey a.name) (natKey b.name) = true := lexLt_true_of_not h1 hab
        have hbc1 : lexLt (natKey b.name) (natKey c.name) = true := lexLt_true_of_not h2 hbc
        exact lexLt_asymm (lexLt_trans hab1 hbc1)

/-- The sorted staging list is a permutation of the staging list. -/
theorem sortGroups_perm (l : List Group) : (sortGroups l).Perm l :=
  List.perm_insertionSort groupLE l

/-- The sorted staging list is pairwise ordered by the comparator with the
id tie-break. -/
theorem sortGroups_pairwise (l : List Group) : (sortGroups l).Pairwise groupLE := by
  have ht : IsTotal Group groupLE := ⟨groupLE_total⟩
  have htr : IsTrans Group groupLE := ⟨groupLE_trans⟩
  exact List.sorted_insertionSort groupLE l

/-! ## Structural lemmas about AddChildren -/

theorem AddChildren_mem_source {source : List Group} :
    ∀ {fuel parent indent g d}, (g, d) ∈ AddChildren source parent indent fuel →
      g ∈ source := by
  intro fuel
  induction fuel with
  | zero => intro parent indent g d h; simp [AddChildren] at h
  | succ f ih =>
    intro parent indent g d h
    simp only [AddChildren, List.mem_flatMap] at h
    obtain ⟨x, hx, hmem⟩ := h
    rcases List.mem_cons.mp hmem with heq | hsub
    · rw [Prod.mk.injEq] at heq
      obtain ⟨rfl, rfl⟩ := heq
      exact List.mem_of_mem_filter hx
    · exact ih hsub

/-- Locating one element inside a flatMap: the element sits inside the image
of one member of the list, and the prefix decomposes accordingly. -/
theorem flatMap_split {α β : Type _} {f : α → List β} :
    ∀ {xs : List α} {l1 l2 : List β} {y : β},
      xs.flatMap f = l1 ++ y :: l2 →
      ∃ x1 x x2 f1 f2, xs = x1 ++ x :: x2 ∧ f x = f1 ++ y :: f2 ∧
        l1 = x1.flatMap f ++ f1 := by
  intro xs
  induction xs with
  | nil => intro l1 l2 y h; simp at h
  | cons a as ih =>
    intro l1 l2 y h
    rw [List.flatMap_cons] at h
    rcases List.append_eq_append_iff.mp h with ⟨a', ha1, ha2⟩ | ⟨c', hc1, hc2⟩
    · obtain ⟨x1, x, x2, f1, f2, hxs, hfx, hl1⟩ := ih ha2
      exact ⟨a :: x1, x, x2, f1, f2, by rw [hxs]; rfl, hfx,
        by rw [ha1, hl1, List.flatMap_cons, List.append_assoc]⟩
    · cases c' with
      | nil =>
        rw [List.append_nil] at hc1
        have h2 : as.flatMap f = [] ++ y :: l2 := by simpa using hc2.symm
        obtain ⟨x1, x, x2, f1, f2, hxs, hfx, hl1⟩ := ih h2
        rcases List.append_eq_nil.mp hl1.symm with ⟨hx1, hf1⟩
        refine ⟨a :: x1, x, x2, f1, f2, by rw [hxs]; rfl, hfx, ?_⟩
        rw [List.flatMap_cons, hx1, hf1]
        simp [hc1]
      | cons y' c'' =>
        injection hc2 with h1 h2
        subst h1
        exact ⟨[], a, as, l1, c'', rfl, hc1, by simp⟩

/-- Every emitted node is either a child of the call's parent at the call's
indent, or is preceded (within the same output) by an occurrence of its
parent record one indent level up. -/
theorem AddChildren_split {source : List Group} :
    ∀ {fuel parent indent l1 l2 g d},
      AddChildren source parent indent fuel = l1 ++ (g, d) :: l2 →
      (g.parent = parent ∧ d = indent) ∨
        ∃ h e, (h, e) ∈ l1 ∧ h.index = g.parent ∧ d = e + 1 := by
  intro fuel
  induction fuel with
  | zero => intro parent indent l1 l2 g d h; simp [AddChildren] at h
  | succ f ih =>
    intro parent indent l1 l2 g d h
    rw [AddChildren] at h
    obtain ⟨x1, x, x2, f1, f2, hxs, hfx, hl1⟩ := flatMap_split h
    have hxmem : x ∈ source.filter (fun g => g.parent == parent) := by
      rw [hxs]; exact List.mem_append_right _ (List.mem_cons_self _ _)
    have hxpar : x.parent = parent := by
      have := (List.mem_filter.mp hxmem).2
      simpa using this
    cases f1 with
    | nil =>
      rw [List.nil_append] at hfx
      injection hfx with h1 h2
      rw [Prod.mk.injEq] at h1
      obtain ⟨rfl, rfl⟩ := h1
      exact Or.inl ⟨hxpar, rfl⟩
    | cons p0 f1' =>
      rw [List.cons_append] at hfx
      injection hfx with h1 h2
      rcases ih h2 with ⟨hgp, hd⟩ | ⟨hh, e, hmem, hidx, hd⟩
      · refine Or.inr ⟨x, indent, ?_, hgp.symm ▸ rfl, hd⟩
        rw [hl1, ← h1]
        exact List.mem_append_right _ (List.mem_cons_self _ _)
      · refine Or.inr ⟨hh, e, ?_, hidx, hd⟩
        rw [hl1]
        exact List.mem_append_right _ (List.mem_cons_of_mem _ hmem)

/-! ## Parent lookup and walk lemmas -/

theorem index_inj {pool : List Group} (hn : (pool.map Group.index).Nodup)
    {a b : Group} (ha : a ∈ pool) (hb : b ∈ pool) (h : a.index = b.index) : a = b :=
  List.inj_on_of_nodup_map hn ha hb h

theorem parentOf_eq {l : List Group} (hn : (l.map Group.index).Nodup)
    {g : Group} (hg : g ∈ l) : parentOf l g.index = some g.parent := by
  unfold parentOf
  cases hf : l.find? (fun h => h.index == g.index) with
  | none =>
    rw [List.find?_eq_none] at hf
    exact absurd (by simp) (hf g hg)
  | some h =>
    have hh : h ∈ l := List.mem_of_find?_eq_some hf
    have hp : h.index = g.index := by simpa using List.find?_some hf
    have heq : h = g := index_inj hn hh hg hp
    subst heq
    simp

theorem parentOf_invalid {l : List Group}
    (hinv : ∀ g ∈ l, g.index ≠ INVALID_GROUP) :
    parentOf l INVALID_GROUP = none := by
  unfold parentOf
  cases hf : l.find? (fun h => h.index == INVALID_GROUP) with
  | none => simp
  | some h =>
    have hh : h ∈ l := List.mem_of_find?_eq_some hf
    have hp : h.index = INVALID_GROUP := by simpa using List.find?_some hf
    exact absurd hp (hinv h hh)

theorem stepN_add (l : List Group) (b : Nat) :
    ∀ (a q), stepN l (a + b) q = (stepN l a q).bind (stepN l b) := by
  intro a
  induction a with
  | zero => intro q; simp [stepN]
  | succ k ih =>
    intro q
    rw [Nat.succ_add]
    show (parentOf l q).bind (stepN l (k + b)) = ((parentOf l q).bind (stepN l k)).bind (stepN l b)
    cases parentOf l q with
    | none => rfl
    | some q' => exact ih q'

/-- The parent walk is deterministic: two observations along it compose. -/
theorem stepN_shift {l : List Group} {n1 n2 q a b : Nat} (h1 : stepN l n1 q = some a)
    (h2 : stepN l n2 q = some b) (hle : n1 ≤ n2) : stepN l (n2 - n1) a = some b := by
  have hn : n1 + (n2 - n1) = n2 := by omega
  rw [← hn, stepN_add, h1] at h2
  exact h2

/-- Walking up from a chain's head stays inside the chain. -/
theorem chain_walk {source : List Group} (hn : (source.map Group.index).Nodup)
    (hinv : ∀ g ∈ source, g.index ≠ INVALID_GROUP) :
    ∀ {p rest}, Chain source p rest → ∀ {k c}, stepN source k p = some c →
      c ∈ p :: rest := by
  intro p rest hch
  induction hch with
  | root =>
    intro k c h
    cases k with
    | zero =>
      simp only [stepN, Option.some.injEq] at h
      simp [← h]
    | succ k' =>
      have : stepN source (k' + 1) INVALID_GROUP =
          (parentOf source INVALID_GROUP).bind (stepN source k') := rfl
      rw [this, parentOf_invalid hinv] at h
      simp at h
  | @step p' rest' g hch' hmem hpar ih =>
    intro k c h
    cases k with
    | zero =>
      simp only [stepN, Option.some.injEq] at h
      simp [← h]
    | succ k' =>
      have hs : stepN source (k' + 1) g.index =
          (parentOf source g.index).bind (stepN source k') := rfl
      rw [hs, parentOf_eq hn hmem, hpar] at h
      exact List.mem_cons_of_mem _ (ih h)

/-- Every non-sentinel chain element is the id of a source record whose
parent is also on the chain. -/
theorem chain_elem_succ {source : List Group} :
    ∀ {p rest}, Chain source p rest → ∀ {c}, c ∈ p :: rest →
      c = INVALID_GROUP ∨ ∃ g ∈ source, g.index = c ∧ g.parent ∈ p :: rest := by
  intro p rest hch
  induction hch with
  | root =>
    intro c hc
    simp only [List.mem_singleton] at hc
    exact Or.inl hc
  | @step p' rest' g hch' hmem hpar ih =>
    intro c hc
    rcases List.mem_cons.mp hc with rfl | hc'
    · exact Or.inr ⟨g, hmem, rfl, by simp [hpar]⟩
    · rcases ih hc' with h | ⟨g', hg', hgi, hgp⟩
      · exact Or.inl h
      · exact Or.inr ⟨g', hg', hgi, List.mem_cons_of_mem _ hgp⟩

/-- Chains have pairwise distinct entries, and a child of the chain's head
is never already on the chain. -/
theorem chain_good {source : List Group} (hn : (source.map Group.index).Nodup)
    (hinv : ∀ g ∈ source, g.index ≠ INVALID_GROUP) :
    ∀ {p rest}, Chain source p rest →
      (p :: rest).Nodup ∧ ∀ g ∈ source, g.parent = p → g.index ∉ p :: rest := by
  intro p rest hch
  induction hch with
  | root =>
    refine ⟨List.nodup_singleton _, ?_⟩
    intro g hg hp hmem
    simp only [List.mem_singleton] at hmem
    exact hinv g hg hmem
  | @step p' rest' g hch' hmem hpar ih =>
    obtain ⟨hnd, hfresh⟩ := ih
    have hgi : g.index ∉ p' :: rest' := hfresh g hmem hpar
    refine ⟨List.nodup_cons.mpr ⟨hgi, hnd⟩, ?_⟩
    intro g2 hg2 hp2 hmem2
    rcases List.mem_cons.mp hmem2 with heq | hmem2'
    · have hgg : g2 = g := index_inj hn hg2 hmem heq
      subst hgg
      have hpp : g2.index = p' := by rw [← hp2, hpar]
      apply hgi
      rw [hpp]
      exact List.mem_cons_self _ _
    · rcases chain_elem_succ hch' hmem2' with hI | ⟨g3, hg3, hgi3, hgp3⟩
      · exact hinv g2 hg2 hI
      · have hg32 : g3 = g2 := index_inj hn hg3 hg2 hgi3
        subst hg32
        apply hgi
        rw [← hp2]
        exact hgp3

/-- Extending the chain with a fresh child strictly shrinks the available
count (the fuel measure). -/
theorem availCount_lt {source : List Group} {chain : List Nat} {g : Group}
    (hg : g ∈ source) (hfresh : g.index ∉ chain) :
    availCount source (g.index :: chain) < availCount source chain := by
  unfold availCount
  rw [List.countP_eq_length_filter, List.countP_eq_length_filter]
  have hsub : (source.filter (fun x => decide (x.index ∉ g.index :: chain))).Sublist
      (source.filter (fun x => decide (x.index ∉ chain))) := by
    apply List.monotone_filter_right
    intro a ha
    simp only [decide_eq_true_eq] at ha ⊢
    intro hmem
    exact ha (List.mem_cons_of_mem _ hmem)
  rcases Nat.lt_or_ge (source.filter (fun x => decide (x.index ∉ g.index :: chain))).length
      (source.filter (fun x => decide (x.index ∉ chain))).length with h | h
  · exact h
  · exfalso
    have heq := hsub.eq_of_length (Nat.le_antisymm hsub.length_le h)
    have hgq : g ∈ source.filter (fun x => decide (x.index ∉ chain)) := by
      rw [List.mem_filter]
      exact ⟨hg, by simpa using hfresh⟩
    rw [← heq, List.mem_filter] at hgq
    have := hgq.2
    simp only [decide_eq_true_eq] at this
    exact this (List.mem_cons_self _ _)

theorem stepN_one_of_mem {source : List Group} (hn : (source.map Group.index).Nodup)
    {x : Group} (hx : x ∈ source) : stepN source 1 x.index = some x.parent := by
  show (parentOf source x.index).bind (stepN source 0) = some x.parent
  rw [parentOf_eq hn hx]
  rfl

/-- Master invariant of AddChildren under a valid call ancestry: emitted ids
avoid the ancestry, are pairwise distinct, and each emitted record walks up
to the call's parent along a valid extended chain. Holds for every fuel. -/
theorem AddChildren_master {source : List Group} (hn : (source.map Group.index).Nodup)
    (hinv : ∀ g ∈ source, g.index ≠ INVALID_GROUP) :
    ∀ {fuel p rest indent}, Chain source p rest →
      (∀ x ∈ AddChildren source p indent fuel, x.1.index ∉ p :: rest) ∧
      ((AddChildren source p indent fuel).map (fun x => x.1.index)).Nodup ∧
      (∀ x ∈ AddChildren source p indent fuel,
        ∃ mid, Chain source x.1.index (mid ++ p :: rest) ∧
          stepN source (mid.length + 1) x.1.index = some p) := by
  intro fuel
  induction fuel with
  | zero =>
    intro p rest indent hch
    refine ⟨?_, ?_, ?_⟩ <;> simp [AddChildren]
  | succ f ih =>
    intro p rest indent hch
    have hfreshTop : ∀ g ∈ source, g.parent = p → g.index ∉ p :: rest :=
      (chain_good hn hinv hch).2
    have hxs : ∀ x ∈ source.filter (fun g => g.parent == p),
        x ∈ source ∧ x.parent = p := by
      intro x hx
      refine ⟨List.mem_of_mem_filter hx, ?_⟩
      have := (List.mem_filter.mp hx).2
      simpa using this
    -- one-step walk for every record emitted by a segment
    have hseg_walk : ∀ x ∈ source.filter (fun g => g.parent == p),
        ∀ y ∈ (x, indent) :: AddChildren source x.index (indent + 1) f,
          ∃ n, stepN source n y.1.index = some x.index := by
      intro x hx y hy
      rcases List.mem_cons.mp hy with rfl | hsub
      · exact ⟨0, rfl⟩
      · obtain ⟨mid, _, hw⟩ :=
          ((ih (Chain.step hch (hxs x hx).1 (hxs x hx).2)).2.2) y hsub
        exact ⟨mid.length + 1, hw⟩
    -- distinct segment heads have disjoint emitted id sets
    have hdisj : ∀ x1 ∈ source.filter (fun g => g.parent == p),
        ∀ x2 ∈ source.filter (fun g => g.parent == p), x1 ≠ x2 →
        ∀ q, (∃ y ∈ (x1, indent) :: AddChildren source x1.index (indent + 1) f,
                y.1.index = q) →
             (∃ y ∈ (x2, indent) :: AddChildren source x2.index (indent + 1) f,
                y.1.index = q) → False := by
      intro x1 hx1 x2 hx2 hne q hq1 hq2
      obtain ⟨y1, hy1, hq1e⟩ := hq1
      obtain ⟨y2, hy2, hq2e⟩ := hq2
      obtain ⟨n1, hw1⟩ := hseg_walk x1 hx1 y1 hy1
      obtain ⟨n2, hw2⟩ := hseg_walk x2 hx2 y2 hy2
      rw [hq1e] at hw1
      rw [hq2e] at hw2
      have hstep : ∀ {xa xb : Group}, xa ∈ source → xa.parent = p →
          xb ∈ source → xb.parent = p → ∀ {m}, stepN source m xa.index = some xb.index →
          xa ≠ xb → False := by
        intro xa xb hxa hpa hxb hpb m hm hnab
        cases m with
        | zero =>
          simp only [stepN, Option.some.injEq] at hm
          exact hnab (index_inj hn hxa hxb hm)
        | succ m' =>
          have h1 : stepN source (m' + 1) xa.index =
              (parentOf source xa.index).bind (stepN source m') := rfl
          rw [h1, parentOf_eq hn hxa, hpa] at hm
          have : xb.index ∈ p :: rest := chain_walk hn hinv hch hm
          exact hfreshTop xb hxb hpb this
      rcases Nat.le_total n1 n2 with hle | hle
      · have := stepN_shift hw1 hw2 hle
        exact hstep (hxs x1 hx1).1 (hxs x1 hx1).2 (hxs x2 hx2).1 (hxs x2 hx2).2 this hne
      · have := stepN_shift hw2 hw1 hle
        exact hstep (hxs x2 hx2).1 (hxs x2 hx2).2 (hxs x1 hx1).1 (hxs x1 hx1).2 this
          (fun h => hne h.symm)
    refine ⟨?_, ?_, ?_⟩
    · -- freshness
      intro y hy
      rw [AddChildren, List.mem_flatMap] at hy
      obtain ⟨x, hx, hmem⟩ := hy
      rcases List.mem_cons.mp hmem with rfl | hsub
      · exact hfreshTop x (hxs x hx).1 (hxs x hx).2
      · intro hmem2
        have hfr := ((ih (Chain.step hch (hxs x hx).1 (hxs x hx).2)).1) y hsub
        exact hfr (List.mem_cons_of_mem _ hmem2)
    · -- distinct ids
      rw [AddChildren, List.map_flatMap, List.nodup_flatMap]
      constructor
      · intro x hx
        rw [List.map_cons, List.nodup_cons]
        constructor
        · intro hmem
          rw [List.mem_map] at hmem
          obtain ⟨y, hy, hyi⟩ := hmem
          have hfr := ((ih (Chain.step hch (hxs x hx).1 (hxs x hx).2)).1) y hy
          exact hfr (hyi ▸ List.mem_cons_self _ _)
        · exact (ih (Chain.step hch (hxs x hx).1 (hxs x hx).2)).2.1
      · have hnd : (source.filter (fun g => g.parent == p)).Nodup :=
          (List.Nodup.of_map Group.index hn).filter _
        refine List.Pairwise.imp_of_mem ?_ (hnd.imp (fun hab => hab))
        intro x1 x2 hm1 hm2 hne
        show List.Disjoint _ _
        intro q hq1 hq2
        rw [List.mem_map] at hq1 hq2
        obtain ⟨y1, hy1, hq1e⟩ := hq1
        obtain ⟨y2, hy2, hq2e⟩ := hq2
        exact hdisj x1 hm1 x2 hm2 hne q ⟨y1, hy1, hq1e⟩ ⟨y2, hy2, hq2e⟩
    · -- walk witnesses
      intro y hy
      rw [AddChildren, List.mem_flatMap] at hy
      obtain ⟨x, hx, hmem⟩ := hy
      rcases List.mem_cons.mp hmem with rfl | hsub
      · refine ⟨[], Chain.step hch (hxs x hx).1 (hxs x hx).2, ?_⟩
        show stepN source 1 x.index = some p
        rw [stepN_one_of_mem hn (hxs x hx).1, (hxs x hx).2]
      · obtain ⟨mid, hchm, hw⟩ :=
          ((ih (Chain.step hch (hxs x hx).1 (hxs x hx).2)).2.2) y hsub
        refine ⟨mid ++ [x.index], ?_, ?_⟩
        · rw [List.append_assoc, List.singleton_append]
          exact hchm
        · rw [List.length_append, List.length_singleton]
          have hsplit : mid.length + 1 + 1 = (mid.length + 1) + 1 := rfl
          rw [show mid.length + 1 + 1 = (mid.length + 1) + 1 from rfl, stepN_add, hw]
          show stepN source 1 x.index = some p
          rw [stepN_one_of_mem hn (hxs x hx).1, (hxs x hx).2]

theorem flatMap_congr {α β : Type _} {f g : α → List β} :
    ∀ {xs : List α}, (∀ x ∈ xs, f x = g x) → xs.flatMap f = xs.flatMap g := by
  intro xs
  induction xs with
  | nil => intro h; rfl
  | cons a as ih =>
    intro h
    rw [List.flatMap_cons, List.flatMap_cons, h a (List.mem_cons_self _ _),
      ih (fun x hx => h x (List.mem_cons_of_mem _ hx))]

/-- Any sufficient fuel computes the same list as the canonical fuel. -/
theorem AddChildren_fuel_canon {source : List Group} (hn : (source.map Group.index).Nodup)
    (hinv : ∀ g ∈ source, g.index ≠ INVALID_GROUP) :
    ∀ fuel, ∀ {p rest indent}, Chain source p rest →
      availCount source (p :: rest) < fuel →
      AddChildren source p indent fuel =
        AddChildren source p indent (availCount source (p :: rest) + 1) := by
  intro fuel
  induction fuel using Nat.strong_induction_on with
  | _ fuel ih =>
    cases fuel with
    | zero => intro p rest indent hch h; omega
    | succ f =>
      intro p rest indent hch h
      rw [AddChildren]
      conv_rhs => rw [AddChildren]
      apply flatMap_congr
      intro x hx
      have hxm : x ∈ source := List.mem_of_mem_filter hx
      have hxp : x.parent = p := by
        have := (List.mem_filter.mp hx).2
        simpa using this
      have hfr : x.index ∉ p :: rest := (chain_good hn hinv hch).2 x hxm hxp
      have hlt : availCount source (x.index :: p :: rest) < availCount source (p :: rest) :=
        availCount_lt hxm hfr
      have hch' : Chain source x.index (p :: rest) := Chain.step hch hxm hxp
      have e1 : AddChildren source x.index (indent + 1) f =
          AddChildren source x.index (indent + 1)
            (availCount source (x.index :: p :: rest) + 1) :=
        ih f (by omega) hch' (by omega)
      have e2 : AddChildren source x.index (indent + 1) (availCount source (p :: rest)) =
          AddChildren source x.index (indent + 1)
            (availCount source (x.index :: p :: rest) + 1) :=
        ih (availCount source (p :: rest)) (by omega) hch' hlt
      rw [e1, e2]

/-- Fuel indifference: any two fuels above the available count give the same
output, so the unfuelled C++ recursion terminates with depth bounded by the
number of source records. -/
theorem AddChildren_fuel {source : List Group} (hn : (source.map Group.index).Nodup)
    (hinv : ∀ g ∈ source, g.index ≠ INVALID_GROUP)
    {fuel1 fuel2 p rest indent} (hch : Chain source p rest)
    (h1 : availCount source (p :: rest) < fuel1)
    (h2 : availCount source (p :: rest) < fuel2) :
    AddChildren source p indent fuel1 = AddChildren source p indent fuel2 := by
  rw [AddChildren_fuel_canon hn hinv fuel1 hch h1, AddChildren_fuel_canon hn hinv fuel2 hch h2]

theorem availCount_root {source : List Group}
    (hinv : ∀ g ∈ source, g.index ≠ INVALID_GROUP) :
    availCount source [INVALID_GROUP] = source.length := by
  unfold availCount
  rw [List.countP_eq_length]
  intro g hg
  simp [hinv g hg]

/-- Children of an emitted record are emitted (one indent deeper), given
sufficient fuel. -/
theorem AddChildren_children {source : List Group} (hn : (source.map Group.index).Nodup)
    (hinv : ∀ g ∈ source, g.index ≠ INVALID_GROUP) :
    ∀ {fuel p rest indent}, Chain source p rest →
      availCount source (p :: rest) < fuel →
      ∀ {h : Group} {d}, (h, d) ∈ AddChildren source p indent fuel →
        ∀ g ∈ source, g.parent = h.index →
          (g, d + 1) ∈ AddChildren source p indent fuel := by
  intro fuel
  induction fuel with
  | zero =>
    intro p rest indent hch hlt h d hmem
    simp [AddChildren] at hmem
  | succ f ih =>
    intro p rest indent hch hlt h d hmem g hg hgp
    rw [AddChildren, List.mem_flatMap] at hmem ⊢
    obtain ⟨x, hx, hm⟩ := hmem
    have hxm : x ∈ source := List.mem_of_mem_filter hx
    have hxp : x.parent = p := by
      have := (List.mem_filter.mp hx).2
      simpa using this
    have hfr : x.index ∉ p :: rest := (chain_good hn hinv hch).2 x hxm hxp
    have hlt' := availCount_lt hxm hfr
    have hch' : Chain source x.index (p :: rest) := Chain.step hch hxm hxp
    rcases List.mem_cons.mp hm with heq | hsub
    · rw [Prod.mk.injEq] at heq
      obtain ⟨rfl, rfl⟩ := heq
      refine ⟨h, hx, List.mem_cons_of_mem _ ?_⟩
      cases f with
      | zero => omega
      | succ f' =>
        rw [AddChildren, List.mem_flatMap]
        refine ⟨g, ?_, List.mem_cons_self _ _⟩
        rw [List.mem_filter]
        exact ⟨hg, by simp [hgp]⟩
    · have := ih hch' (by omega) hsub g hg hgp
      exact ⟨x, hx, List.mem_cons_of_mem _ this⟩

theorem stepN_selfloop {source : List Group} (hn : (source.map Group.index).Nodup)
    {g : Group} (hg : g ∈ source) (hself : g.parent = g.index) :
    ∀ k, stepN source k g.index = some g.index := by
  intro k
  induction k with
  | zero => rfl
  | succ k' ih =>
    show (parentOf source g.index).bind (stepN source k') = some g.index
    rw [parentOf_eq hn hg, Option.some_bind, hself, ih]

theorem reachesRoot_invalid (l : List Group) (n : Nat) :
    reachesRoot l INVALID_GROUP n = true := by
  cases n <;> simp [reachesRoot]

/-- Unfolding reachesRoot through parentOf. -/
theorem reachesRoot_succ (l : List Group) (q n : Nat) :
    reachesRoot l q (n + 1) =
      (q == INVALID_GROUP ||
        match parentOf l q with
        | some r => reachesRoot l r n
        | none => false) := by
  show (q == INVALID_GROUP ||
      match l.find? (fun g => g.index == q) with
      | some g => reachesRoot l g.parent n
      | none => false) = _
  unfold parentOf
  cases l.find? (fun g => g.index == q) <;> rfl

theorem reachesRoot_of_stepN {l : List Group} :
    ∀ {m n q}, stepN l m q = some INVALID_GROUP → m ≤ n →
      reachesRoot l q n = true := by
  intro m
  induction m with
  | zero =>
    intro n q h _
    simp only [stepN, Option.some.injEq] at h
    subst h
    exact reachesRoot_invalid l n
  | succ m' ih =>
    intro n q h hle
    have hdef : stepN l (m' + 1) q = (parentOf l q).bind (stepN l m') := rfl
    rw [hdef] at h
    cases hp : parentOf l q with
    | none => rw [hp] at h; simp at h
    | some r =>
      rw [hp, Option.some_bind] at h
      cases n with
      | zero => omega
      | succ n' =>
        rw [reachesRoot_succ, hp]
        have hr : reachesRoot l r n' = true := ih h (by omega)
        simp [hr]

theorem stepN_of_reachesRoot {l : List Group} :
    ∀ {n q}, reachesRoot l q n = true →
      ∃ k, k ≤ n ∧ stepN l k q = some INVALID_GROUP := by
  intro n
  induction n with
  | zero =>
    intro q h
    simp only [reachesRoot, beq_iff_eq] at h
    exact ⟨0, Nat.le_refl 0, by simp [stepN, h]⟩
  | succ n' ih =>
    intro q h
    rw [reachesRoot_succ] at h
    rw [Bool.or_eq_true] at h
    rcases h with h1 | h2
    · have hq : q = INVALID_GROUP := by simpa using h1
      exact ⟨0, by omega, by simp [stepN, hq]⟩
    · cases hp : parentOf l q with
      | none => rw [hp] at h2; simp at h2
      | some r =>
        rw [hp] at h2
        obtain ⟨k, hk, hs⟩ := ih h2
        refine ⟨k + 1, by omega, ?_⟩
        show (parentOf l q).bind (stepN l k) = some INVALID_GROUP
        rw [hp, Option.some_bind, hs]

theorem chain_subset {source : List Group} :
    ∀ {p rest}, Chain source p rest → ∀ c ∈ p :: rest,
      c = INVALID_GROUP ∨ c ∈ source.map Group.index := by
  intro p rest hch c hc
  rcases chain_elem_succ hch hc with h | ⟨g, hg, hgi, _⟩
  · exact Or.inl h
  · exact Or.inr (hgi ▸ List.mem_map_of_mem Group.index hg)

theorem chain_length_le {source : List Group} (hn : (source.map Group.index).Nodup)
    (hinv : ∀ g ∈ source, g.index ≠ INVALID_GROUP) :
    ∀ {p rest}, Chain source p rest → (p :: rest).length ≤ source.length + 1 := by
  intro p rest hch
  have hnd := (chain_good hn hinv hch).1
  have hsub : (p :: rest) ⊆ INVALID_GROUP :: source.map Group.index := by
    intro c hc
    rcases chain_subset hch c hc with h | h
    · rw [h]; exact List.mem_cons_self _ _
    · exact List.mem_cons_of_mem _ h
  have := (List.subperm_of_subset hnd hsub).length_le
  simpa using this

/-- Records whose parent walk reaches the root are emitted (with the
canonical fuel of BuildGroupList). -/
theorem AddChildren_walk_emitted {source : List Group}
    (hn : (source.map Group.index).Nodup)
    (hinv : ∀ g ∈ source, g.index ≠ INVALID_GROUP) :
    ∀ k (g : Group), g ∈ source → stepN source k g.parent = some INVALID_GROUP →
      ∃ d, (g, d) ∈ AddChildren source INVALID_GROUP 0 (source.length + 1) := by
  intro k
  induction k using Nat.strong_induction_on with
  | _ k ih =>
    intro g hg hs
    cases k with
    | zero =>
      simp only [stepN, Option.some.injEq] at hs
      refine ⟨0, ?_⟩
      rw [AddChildren, List.mem_flatMap]
      exact ⟨g, by rw [List.mem_filter]; exact ⟨hg, by simp [hs]⟩, List.mem_cons_self _ _⟩
    | succ k' =>
      have hdef : stepN source (k' + 1) g.parent =
          (parentOf source g.parent).bind (stepN source k') := rfl
      rw [hdef] at hs
      cases hp : parentOf source g.parent with
      | none => rw [hp] at hs; simp at hs
      | some r =>
        rw [hp, Option.some_bind] at hs
        unfold parentOf at hp
        cases hf : source.find? (fun x => x.index == g.parent) with
        | none => rw [hf] at hp; simp at hp
        | some hrec =>
          rw [hf] at hp
          simp only [Option.map_some', Option.some.injEq] at hp
          have hhm : hrec ∈ source := List.mem_of_find?_eq_some hf
          have hhi : hrec.index = g.parent := by simpa using List.find?_some hf
          have hs' : stepN source k' hrec.parent = some INVALID_GROUP := by
            rw [hp]; exact hs
          obtain ⟨d, hd⟩ := ih k' (by omega) hrec hhm hs'
          have hav : availCount source [INVALID_GROUP] < source.length + 1 := by
            rw [availCount_root hinv]; omega
          exact ⟨d + 1, AddChildren_children hn hinv Chain.root hav hd g hg hhi.symm⟩

/-- The output of the flattener at canonical fuel: exactly the records whose
parent chain reaches the root. -/
theorem AddChildren_emitted_iff {source : List Group}
    (hn : (source.map Group.index).Nodup)
    (hinv : ∀ g ∈ source, g.index ≠ INVALID_GROUP) (g : Group) :
    (∃ d, (g, d) ∈ AddChildren source INVALID_GROUP 0 (source.length + 1)) ↔
      g ∈ source ∧ reachesRoot source g.parent source.length = true := by
  constructor
  · rintro ⟨d, hd⟩
    have hgs : g ∈ source := AddChildren_mem_source hd
    obtain ⟨mid, hchm, hw⟩ := (AddChildren_master hn hinv Chain.root).2.2 (g, d) hd
    have hb := chain_length_le hn hinv hchm
    rw [List.length_cons, List.length_append] at hb
    simp only [List.length_cons, List.length_nil] at hb
    have hw' : stepN source mid.length g.parent = some INVALID_GROUP := by
      have hdef : stepN source (mid.length + 1) g.index =
          (parentOf source g.index).bind (stepN source mid.length) := rfl
      rw [hdef, parentOf_eq hn hgs, Option.some_bind] at hw
      exact hw
    exact ⟨hgs, reachesRoot_of_stepN hw' (by omega)⟩
  · rintro ⟨hgs, hr⟩
    obtain ⟨k, _, hs⟩ := stepN_of_reachesRoot hr
    exact AddChildren_walk_emitted hn hinv k g hgs hs

/-! ## Permutation invariance of the parent walk -/

theorem parentOf_perm {l l' : List Group} (hperm : l.Perm l')
    (hn : (l.map Group.index).Nodup) (q : Nat) : parentOf l q = parentOf l' q := by
  unfold parentOf
  cases hf : l.find? (fun g => g.index == q) with
  | none =>
    cases hf' : l'.find? (fun g => g.index == q) with
    | none => rfl
    | some g1 =>
      exfalso
      have hq := List.find?_some hf'
      rw [List.find?_eq_none] at hf
      exact hf g1 (hperm.mem_iff.mpr (List.mem_of_find?_eq_some hf')) hq
  | some g1 =>
    cases hf' : l'.find? (fun g => g.index == q) with
    | none =>
      exfalso
      have hq := List.find?_some hf
      rw [List.find?_eq_none] at hf'
      exact hf' g1 (hperm.mem_iff.mp (List.mem_of_find?_eq_some hf)) hq
    | some g2 =>
      have hg : g1 ∈ l := List.mem_of_find?_eq_some hf
      have hg2 : g2 ∈ l := hperm.mem_iff.mpr (List.mem_of_find?_eq_some hf')
      have hgi : g1.index = q := by simpa using List.find?_some hf
      have hgi2 : g2.index = q := by simpa using List.find?_some hf'
      rw [index_inj hn hg hg2 (hgi.trans hgi2.symm)]

theorem reachesRoot_perm {l l' : List Group} (hperm : l.Perm l')
    (hn : (l.map Group.index).Nodup) :
    ∀ n q, reachesRoot l q n = reachesRoot l' q n := by
  intro n
  induction n with
  | zero => intro q; rfl
  | succ n' ih =>
    intro q
    rw [reachesRoot_succ, reachesRoot_succ, parentOf_perm hperm hn q]
    cases parentOf l' q with
    | none => rfl
    | some r => simp [ih r]

/-- Siblings (records with equal parent fields) appear in the flattened
output in comparator order, when the source list itself is sorted. -/
theorem AddChildren_sibling_sorted {source : List Group}
    (hn : (source.map Group.index).Nodup)
    (hinv : ∀ g ∈ source, g.index ≠ INVALID_GROUP)
    (hsorted : source.Pairwise groupLE) :
    ∀ {fuel p rest indent}, Chain source p rest →
      (AddChildren source p indent fuel).Pairwise
        (fun a b => a.1.parent = b.1.parent → groupLE a.1 b.1) := by
  intro fuel
  induction fuel with
  | zero => intro p rest indent hch; simp [AddChildren]
  | succ f ih =>
    intro p rest indent hch
    rw [AddChildren, List.pairwise_flatMap]
    have hfreshTop := (chain_good hn hinv hch).2
    have hxs : ∀ x ∈ source.filter (fun g => g.parent == p),
        x ∈ source ∧ x.parent = p := by
      intro x hx
      refine ⟨List.mem_of_mem_filter hx, ?_⟩
      have := (List.mem_filter.mp hx).2
      simpa using this
    have hsub_walk : ∀ x ∈ source.filter (fun g => g.parent == p),
        ∀ y ∈ AddChildren source x.index (indent + 1) f,
          ∃ k, stepN source k y.1.parent = some x.index := by
      intro x hx y hy
      obtain ⟨mid, _, hw⟩ :=
        (AddChildren_master hn hinv (Chain.step hch (hxs x hx).1 (hxs x hx).2)).2.2 y hy
      have hym : y.1 ∈ source := by
        obtain ⟨y1, y2⟩ := y
        exact AddChildren_mem_source hy
      refine ⟨mid.length, ?_⟩
      have hdef : stepN source (mid.length + 1) y.1.index =
          (parentOf source y.1.index).bind (stepN source mid.length) := rfl
      rw [hdef, parentOf_eq hn hym, Option.some_bind] at hw
      exact hw
    have hnop : ∀ x ∈ source.filter (fun g => g.parent == p),
        ∀ y ∈ AddChildren source x.index (indent + 1) f, y.1.parent ≠ p := by
      intro x hx y hy hpar
      obtain ⟨k, hw⟩ := hsub_walk x hx y hy
      rw [hpar] at hw
      exact hfreshTop x (hxs x hx).1 (hxs x hx).2 (chain_walk hn hinv hch hw)
    have hstep2 : ∀ {xa xb : Group}, xa ∈ source → xa.parent = p → xb ∈ source →
        xb.parent = p → ∀ {m}, stepN source m xa.index = some xb.index → xa = xb := by
      intro xa xb hxa hpa hxb hpb m hm
      cases m with
      | zero =>
        simp only [stepN, Option.some.injEq] at hm
        exact index_inj hn hxa hxb hm
      | succ m' =>
        exfalso
        have h1 : stepN source (m' + 1) xa.index =
            (parentOf source xa.index).bind (stepN source m') := rfl
        rw [h1, parentOf_eq hn hxa, hpa] at hm
        exact hfreshTop xb hxb hpb (chain_walk hn hinv hch hm)
    constructor
    · -- pairwise inside one segment
      intro x hx
      rw [List.pairwise_cons]
      constructor
      · intro y hy hpar
        exact absurd ((hxs x hx).2 ▸ hpar.symm) (hnop x hx y hy)
      · exact ih (Chain.step hch (hxs x hx).1 (hxs x hx).2)
    · -- pairwise across segments
      have hnd : (source.filter (fun g => g.parent == p)).Nodup :=
        (List.Nodup.of_map Group.index hn).filter _
      have hLE : (source.filter (fun g => g.parent == p)).Pairwise groupLE :=
        hsorted.filter _
      refine List.Pairwise.imp_of_mem ?_ (hLE.and (hnd.imp (fun hab => hab)))
      intro x1 x2 hm1 hm2 hcomb u hu v hv hpar
      obtain ⟨hle, hne⟩ := hcomb
      rcases List.mem_cons.mp hu with rfl | hu'
      · rcases List.mem_cons.mp hv with rfl | hv'
        · exact hle
        · exfalso
          apply hnop x2 hm2 v hv'
          rw [← hpar]
          exact (hxs x1 hm1).2
      · rcases List.mem_cons.mp hv with rfl | hv'
        · exfalso
          apply hnop x1 hm1 u hu'
          rw [hpar]
          exact (hxs x2 hm2).2
        · exfalso
          obtain ⟨k1, hw1⟩ := hsub_walk x1 hm1 u hu'
          obtain ⟨k2, hw2⟩ := hsub_walk x2 hm2 v hv'
          rw [hpar] at hw1
          rcases Nat.le_total k1 k2 with hle12 | hle21
          · exact hne (hstep2 (hxs x1 hm1).1 (hxs x1 hm1).2 (hxs x2 hm2).1 (hxs x2 hm2).2
              (stepN_shift hw1 hw2 hle12))
          · exact hne (hstep2 (hxs x2 hm2).1 (hxs x2 hm2).2 (hxs x1 hm1).1 (hxs x1 hm1).2
              (stepN_shift hw2 hw1 hle21)).symm

/-! ## Transferring the pool invariants to the staged and sorted lists -/

theorem goodPool_staged {pool : List Group} (h : GoodPool pool) (owner lclass : Nat) :
    ((stagedGroups pool owner lclass).map Group.index).Nodup ∧
      ∀ g ∈ stagedGroups pool owner lclass, g.index ≠ INVALID_GROUP := by
  obtain ⟨hn, hinv⟩ := h
  constructor
  · exact List.Nodup.sublist ((List.filter_sublist pool).map Group.index) hn
  · intro g hg
    exact hinv g (List.mem_of_mem_filter hg)

theorem goodPool_sorted {pool : List Group} (h : GoodPool pool) (owner lclass : Nat) :
    ((sortGroups (stagedGroups pool owner lclass)).map Group.index).Nodup ∧
      ∀ g ∈ sortGroups (stagedGroups pool owner lclass), g.index ≠ INVALID_GROUP := by
  obtain ⟨hn, hinv⟩ := goodPool_staged h owner lclass
  constructor
  · exact ((sortGroups_perm _).map Group.index).nodup_iff.mpr hn
  · intro g hg
    exact hinv g ((sortGroups_perm _).mem_iff.mp hg)

theorem BuildGroupList_eq {pool : List Group} {owner lclass : Nat}
    (hcl : LC_GROUP_RAIL ≤ lclass) :
    BuildGroupList pool owner lclass =
      AddChildren (sortGroups (stagedGroups pool owner lclass)) INVALID_GROUP 0
        ((sortGroups (stagedGroups pool owner lclass)).length + 1) := by
  unfold BuildGroupList
  rw [if_pos hcl]

/-! ## Claim theorems -/

/-- C1: the flattened list produced by BuildGroupList is a valid preorder
traversal of the forest induced by parent links over the filtered records:
every emitted node is either a root (parent ROOT, indent 0) or preceded in
the list by an occurrence of its parent record (which is in the filtered
set) one indent level up; a node's indent is 0 exactly when its parent is
ROOT; and a record whose parent is non-ROOT but absent from the filtered
set is never emitted. -/
theorem liveryC1_preorder (pool : List Group) (owner lclass : Nat)
    (hinv : ∀ g ∈ pool, g.index ≠ INVALID_GROUP) :
    (∀ l1 g d l2, BuildGroupList pool owner lclass = l1 ++ (g, d) :: l2 →
      (g.parent = INVALID_GROUP ∧ d = 0) ∨
        ∃ h e, (h, e) ∈ l1 ∧ h ∈ stagedGroups pool owner lclass ∧
          h.index = g.parent ∧ d = e + 1) ∧
    (∀ g d, (g, d) ∈ BuildGroupList pool owner lclass →
      g ∈ stagedGroups pool owner lclass) ∧
    (∀ g d, (g, d) ∈ BuildGroupList pool owner lclass →
      (g.parent = INVALID_GROUP ↔ d = 0)) ∧
    (∀ g, g.parent ≠ INVALID_GROUP →
      (∀ h ∈ stagedGroups pool owner lclass, h.index ≠ g.parent) →
      ∀ d, (g, d) ∉ BuildGroupList pool owner lclass) := by
  by_cases hcl : LC_GROUP_RAIL ≤ lclass
  · have hbg := @BuildGroupList_eq pool owner lclass hcl
    have hstg : ∀ g ∈ stagedGroups pool owner lclass, g.index ≠ INVALID_GROUP := by
      intro g hg
      exact hinv g (List.mem_of_mem_filter hg)
    have hsortmem : ∀ g ∈ sortGroups (stagedGroups pool owner lclass),
        g ∈ stagedGroups pool owner lclass := by
      intro g hg
      exact (sortGroups_perm _).mem_iff.mp hg
    have ha : ∀ l1 g d l2, BuildGroupList pool owner lclass = l1 ++ (g, d) :: l2 →
        (g.parent = INVALID_GROUP ∧ d = 0) ∨
          ∃ h e, (h, e) ∈ l1 ∧ h ∈ stagedGroups pool owner lclass ∧
            h.index = g.parent ∧ d = e + 1 := by
      intro l1 g d l2 heq
      rw [hbg] at heq
      rcases AddChildren_split heq with hbase | ⟨h, e, hmem, hidx, hd⟩
      · exact Or.inl hbase
      · refine Or.inr ⟨h, e, hmem, ?_, hidx, hd⟩
        have hmo : (h, e) ∈ l1 ++ (g, d) :: l2 := List.mem_append_left _ hmem
        rw [← heq] at hmo
        exact hsortmem h (AddChildren_mem_source hmo)
    have hb : ∀ g d, (g, d) ∈ BuildGroupList pool owner lclass →
        g ∈ stagedGroups pool owner lclass := by
      intro g d hm
      rw [hbg] at hm
      exact hsortmem g (AddChildren_mem_source hm)
    refine ⟨ha, hb, ?_, ?_⟩
    · intro g d hm
      obtain ⟨s, t, hst⟩ := List.append_of_mem hm
      constructor
      · intro hroot
        rcases ha s g d t hst with ⟨_, hd0⟩ | ⟨h, e, _, hstgm, hidx, _⟩
        · exact hd0
        · exact absurd (hidx.trans hroot) (hstg h hstgm)
      · intro hd0
        rcases ha s g d t hst with ⟨hr, _⟩ | ⟨h, e, _, _, _, hd⟩
        · exact hr
        · omega
    · intro g hgp hnopar d hm
      obtain ⟨s, t, hst⟩ := List.append_of_mem hm
      rcases ha s g d t hst with ⟨hr, _⟩ | ⟨h, e, _, hstgm, hidx, _⟩
      · exact hgp hr
      · exact hnopar h hstgm hidx
  · have hbg : BuildGroupList pool owner lclass = [] := by
      unfold BuildGroupList
      rw [if_neg hcl]
    refine ⟨?_, ?_, ?_, ?_⟩
    · intro l1 g d l2 heq
      rw [hbg] at heq
      exact absurd heq.symm (by simp)
    · intro g d hm
      rw [hbg] at hm
      simp at hm
    · intro g d hm
      rw [hbg] at hm
      simp at hm
    · intro g _ _ d hm
      rw [hbg] at hm
      simp at hm

/-- Witness for C1 at the spec scenario pool (Zeta, Alpha, Mid under Alpha). -/
theorem liveryC1_preorder_witness :
    (∀ l1 g d l2, BuildGroupList poolW 0 5 = l1 ++ (g, d) :: l2 →
      (g.parent = INVALID_GROUP ∧ d = 0) ∨
        ∃ h e, (h, e) ∈ l1 ∧ h ∈ stagedGroups poolW 0 5 ∧
          h.index = g.parent ∧ d = e + 1) ∧
    (∀ g d, (g, d) ∈ BuildGroupList poolW 0 5 → g ∈ stagedGroups poolW 0 5) ∧
    (∀ g d, (g, d) ∈ BuildGroupList poolW 0 5 → (g.parent = INVALID_GROUP ↔ d = 0)) ∧
    (∀ g, g.parent ≠ INVALID_GROUP →
      (∀ h ∈ stagedGroups poolW 0 5, h.index ≠ g.parent) →
      ∀ d, (g, d) ∉ BuildGroupList poolW 0 5) :=
  liveryC1_preorder poolW 0 5 (by decide)

/-- C3: sibling sequences of the flattened list are ordered by the
natural-order comparator on display names with ties broken by ascending id
(the relation groupLE); the result is the deterministic output of a pure
function of the staging set. -/
theorem liveryC3_sibling_order (pool : List Group) (owner lclass : Nat)
    (hgp : GoodPool pool) :
    (BuildGroupList pool owner lclass).Pairwise
      (fun a b => a.1.parent = b.1.parent → groupLE a.1 b.1) := by
  by_cases hcl : LC_GROUP_RAIL ≤ lclass
  · rw [BuildGroupList_eq hcl]
    obtain ⟨hn, hinv⟩ := goodPool_sorted hgp owner lclass
    exact AddChildren_sibling_sorted hn hinv (sortGroups_pairwise _) Chain.root
  · unfold BuildGroupList
    rw [if_neg hcl]
    exact List.Pairwise.nil

/-- Witness for C3 at the spec scenario pool. -/
theorem liveryC3_sibling_order_witness :
    (BuildGroupList poolW 0 5).Pairwise
      (fun a b => a.1.parent = b.1.parent → groupLE a.1 b.1) :=
  liveryC3_sibling_order poolW 0 5 ⟨by decide, by decide⟩

/-- C6 as stated fails on the code: with an orphan (id 1, parent 5 absent)
and its child (id 2, parent 1 present) staged, the flattened list is empty,
while |staged| - |orphans| = 2 - 1 = 1: the child of an orphan is not an
orphan by the claim's definition, yet it is never emitted. -/
theorem liveryC6_counterexample :
    (BuildGroupList poolC6 0 5).length ≠
      (stagedGroups poolC6 0 5).length -
        (stagedGroups poolC6 0 5).countP (orphanB (stagedGroups poolC6 0 5)) := by
  decide

/-- C6 amended: the length of the flattened list equals the number of
filtered records minus the number of filtered records whose upward parent
chain inside the filtered set fails to reach ROOT (orphans together with
their descendants and members of parent cycles). -/
theorem liveryC6_amended (pool : List Group) (owner lclass : Nat)
    (hgp : GoodPool pool) (hcl : LC_GROUP_RAIL ≤ lclass) :
    (BuildGroupList pool owner lclass).length =
      (stagedGroups pool owner lclass).length -
        (stagedGroups pool owner lclass).countP
          (fun g => !(reachesRoot (stagedGroups pool owner lclass) g.parent
            (stagedGroups pool owner lclass).length)) := by
  obtain ⟨hn, hinv⟩ := goodPool_sorted hgp owner lclass
  have hbg := @BuildGroupList_eq pool owner lclass hcl
  have hperm : (sortGroups (stagedGroups pool owner lclass)).Perm
      (stagedGroups pool owner lclass) := sortGroups_perm _
  have hplen : (sortGroups (stagedGroups pool owner lclass)).length =
      (stagedGroups pool owner lclass).length := hperm.length_eq
  have hmain : (BuildGroupList pool owner lclass).length =
      (stagedGroups pool owner lclass).countP
        (fun g => reachesRoot (stagedGroups pool owner lclass) g.parent
          (stagedGroups pool owner lclass).length) := by
    have hids := (@AddChildren_master _ hn hinv
      ((sortGroups (stagedGroups pool owner lclass)).length + 1) INVALID_GROUP [] 0
      Chain.root).2.1
    have hndfst : ((AddChildren (sortGroups (stagedGroups pool owner lclass))
        INVALID_GROUP 0 ((sortGroups (stagedGroups pool owner lclass)).length + 1)).map
          Prod.fst).Nodup := by
      apply List.Nodup.of_map Group.index
      rw [List.map_map]
      exact hids
    have hndfil : ((sortGroups (stagedGroups pool owner lclass)).filter
        (fun g => reachesRoot (sortGroups (stagedGroups pool owner lclass)) g.parent
          (sortGroups (stagedGroups pool owner lclass)).length)).Nodup :=
      (List.Nodup.of_map Group.index hn).filter _
    have hmemiff : ∀ x,
        (x ∈ (AddChildren (sortGroups (stagedGroups pool owner lclass)) INVALID_GROUP 0
            ((sortGroups (stagedGroups pool owner lclass)).length + 1)).map Prod.fst) ↔
        x ∈ (sortGroups (stagedGroups pool owner lclass)).filter
          (fun g => reachesRoot (sortGroups (stagedGroups pool owner lclass)) g.parent
            (sortGroups (stagedGroups pool owner lclass)).length) := by
      intro x
      rw [List.mem_filter]
      constructor
      · intro hx
        rw [List.mem_map] at hx
        obtain ⟨y, hy, heq⟩ := hx
        obtain ⟨a, b⟩ := y
        simp only at heq
        subst heq
        exact (AddChildren_emitted_iff hn hinv a).mp ⟨b, hy⟩
      · intro hx
        obtain ⟨d, hd⟩ := (AddChildren_emitted_iff hn hinv x).mpr ⟨hx.1, hx.2⟩
        exact List.mem_map_of_mem Prod.fst hd
    have hpermfil := (List.perm_ext_iff_of_nodup hndfst hndfil).mpr hmemiff
    rw [hbg]
    calc (AddChildren (sortGroups (stagedGroups pool owner lclass)) INVALID_GROUP 0
          ((sortGroups (stagedGroups pool owner lclass)).length + 1)).length
        = ((AddChildren (sortGroups (stagedGroups pool owner lclass)) INVALID_GROUP 0
            ((sortGroups (stagedGroups pool owner lclass)).length + 1)).map
              Prod.fst).length := by rw [List.length_map]
      _ = ((sortGroups (stagedGroups pool owner lclass)).filter
            (fun g => reachesRoot (sortGroups (stagedGroups pool owner lclass)) g.parent
              (sortGroups (stagedGroups pool owner lclass)).length)).length :=
          hpermfil.length_eq
      _ = (sortGroups (stagedGroups pool owner lclass)).countP
            (fun g => reachesRoot (sortGroups (stagedGroups pool owner lclass)) g.parent
              (sortGroups (stagedGroups pool owner lclass)).length) :=
          (List.countP_eq_length_filter _ _).symm
      _ = (stagedGroups pool owner lclass).countP
            (fun g => reachesRoot (sortGroups (stagedGroups pool owner lclass)) g.parent
              (sortGroups (stagedGroups pool owner lclass)).length) :=
          hperm.countP_eq _
      _ = (stagedGroups pool owner lclass).countP
            (fun g => reachesRoot (stagedGroups pool owner lclass) g.parent
              (stagedGroups pool owner lclass).length) := by
          apply List.countP_congr
          intro x hx
          rw [hplen, reachesRoot_perm hperm hn]
  have hsplit := List.length_eq_countP_add_countP
    (fun g => reachesRoot (stagedGroups pool owner lclass) g.parent
      (stagedGroups pool owner lclass).length) (stagedGroups pool owner lclass)
  have hcompl : (stagedGroups pool owner lclass).countP
      (fun a => decide ¬((fun g => reachesRoot (stagedGroups pool owner lclass) g.parent
        (stagedGroups pool owner lclass).length) a = true)) =
      (stagedGroups pool owner lclass).countP
        (fun g => !(reachesRoot (stagedGroups pool owner lclass) g.parent
          (stagedGroups pool owner lclass).length)) := by
    apply List.countP_congr
    intro x hx
    cases h : reachesRoot (stagedGroups pool owner lclass) x.parent
      (stagedGroups pool owner lclass).length <;> simp [h]
  rw [hcompl] at hsplit
  omega

/-- Witness for the amended C6: both staged records of the orphan pool are
unreachable, so the list length is 2 - 2 = 0. -/
theorem liveryC6_amended_witness :
    (BuildGroupList poolC6 0 5).length =
      (stagedGroups poolC6 0 5).length -
        (stagedGroups poolC6 0 5).countP
          (fun g => !(reachesRoot (stagedGroups poolC6 0 5) g.parent
            (stagedGroups poolC6 0 5).length)) :=
  liveryC6_amended poolC6 0 5 ⟨by decide, by decide⟩ (by decide)

/-- C10: BuildGroupList and AddChildren terminate on every finite input,
cycles included: any fuel above the number of staged records produces the
canonical output (the recursion depth is bounded by the staged count, since
every recursion path visits pairwise distinct ids), and a record lying on a
parent cycle (here: a self-parent) is never emitted, for any fuel. -/
theorem liveryC10_termination (pool : List Group) (owner lclass : Nat)
    (hgp : GoodPool pool) (hcl : LC_GROUP_RAIL ≤ lclass) :
    (∀ fuel, (sortGroups (stagedGroups pool owner lclass)).length < fuel →
      AddChildren (sortGroups (stagedGroups pool owner lclass)) INVALID_GROUP 0 fuel =
        BuildGroupList pool owner lclass) ∧
    (∀ g ∈ sortGroups (stagedGroups pool owner lclass), g.parent = g.index →
      ∀ d fuel, (g, d) ∉
        AddChildren (sortGroups (stagedGroups pool owner lclass)) INVALID_GROUP 0 fuel) := by
  obtain ⟨hn, hinv⟩ := goodPool_sorted hgp owner lclass
  constructor
  · intro fuel hf
    rw [BuildGroupList_eq hcl]
    apply AddChildren_fuel hn hinv Chain.root
    · rw [availCount_root hinv]
      exact hf
    · rw [availCount_root hinv]
      omega
  · intro g hg hself d fuel hmem
    obtain ⟨mid, _, hw⟩ := (AddChildren_master hn hinv Chain.root).2.2 (g, d) hmem
    rw [stepN_selfloop hn hg hself (mid.length + 1)] at hw
    have hgi : g.index = INVALID_GROUP := by simpa using hw
    exact hinv g hg hgi

/-- Witness for C10 at a pool holding a self-parent record and a root. -/
theorem liveryC10_termination_witness :
    (∀ fuel, (sortGroups (stagedGroups poolC10 0 5)).length < fuel →
      AddChildren (sortGroups (stagedGroups poolC10 0 5)) INVALID_GROUP 0 fuel =
        BuildGroupList poolC10 0 5) ∧
    (∀ g ∈ sortGroups (stagedGroups poolC10 0 5), g.parent = g.index →
      ∀ d fuel, (g, d) ∉
        AddChildren (sortGroups (stagedGroups poolC10 0 5)) INVALID_GROUP 0 fuel) :=
  liveryC10_termination poolC10 0 5 ⟨by decide, by decide⟩ (by decide)

/-- C2 fails on the code: after an invalidation for the rail group class
with group 1 selected, group 1 is orphaned (its parent 7 was deleted) and
absent from the rebuilt list, but it is still pool-valid, so
OnInvalidateData keeps the selection: the selection is neither NONE nor a
group id present in the new flattened list. -/
theorem liveryC2_counterexample :
    ¬ ((OnInvalidateVehicleType poolC2 0 0 stC2).sel = INVALID_GROUP ∨
       ∃ pr ∈ (OnInvalidateVehicleType poolC2 0 0 stC2).groups,
         pr.1.index = (OnInvalidateVehicleType poolC2 0 0 stC2).sel) := by
  decide

/-- C2 amended: the invalidation handler rebuilds the list and row count;
the selection falls back to the first row of the new list (or NONE when it
is empty) exactly when the selected id is no longer pool-valid
(Group::IsValidID); a pool-valid selection is kept unchanged even when the
rebuilt list no longer contains it (orphaned group). -/
theorem liveryC2_amended (pool : List Group) (owner vtype : Nat) (st : LiveryState)
    (hcls : st.livery_class = vtype + LC_GROUP_RAIL) :
    (OnInvalidateVehicleType pool owner vtype st).groups =
      BuildGroupList pool owner st.livery_class ∧
    (OnInvalidateVehicleType pool owner vtype st).rows =
      (BuildGroupList pool owner st.livery_class).length ∧
    (isValidID pool st.sel = true →
      (OnInvalidateVehicleType pool owner vtype st).sel = st.sel) ∧
    (isValidID pool st.sel = false →
      ((BuildGroupList pool owner st.livery_class = [] ∧
        (OnInvalidateVehicleType pool owner vtype st).sel = INVALID_GROUP) ∨
       (∃ pr t, BuildGroupList pool owner st.livery_class = pr :: t ∧
        (OnInvalidateVehicleType pool owner vtype st).sel = pr.1.index))) := by
  have hcond : (st.livery_class == vtype + LC_GROUP_RAIL) = true := by
    simp [hcls]
  unfold OnInvalidateVehicleType
  rw [if_pos hcond]
  refine ⟨rfl, rfl, ?_, ?_⟩
  · intro hv
    simp [hv]
  · intro hv
    cases hbl : BuildGroupList pool owner st.livery_class with
    | nil =>
      left
      exact ⟨rfl, by simp [hv, hbl]⟩
    | cons pr t =>
      right
      exact ⟨pr, t, rfl, by simp [hv, hbl]⟩

/-- Witness for the amended C2 at the orphan pool: the orphaned selection 1
is pool-valid and therefore kept. -/
theorem liveryC2_amended_witness :
    (OnInvalidateVehicleType poolC2 0 0 stC2).groups =
      BuildGroupList poolC2 0 stC2.livery_class ∧
    (OnInvalidateVehicleType poolC2 0 0 stC2).rows =
      (BuildGroupList poolC2 0 stC2.livery_class).length ∧
    (isValidID poolC2 stC2.sel = true →
      (OnInvalidateVehicleType poolC2 0 0 stC2).sel = stC2.sel) ∧
    (isValidID poolC2 stC2.sel = false →
      ((BuildGroupList poolC2 0 stC2.livery_class = [] ∧
        (OnInvalidateVehicleType poolC2 0 0 stC2).sel = INVALID_GROUP) ∨
       (∃ pr t, BuildGroupList poolC2 0 stC2.livery_class = pr :: t ∧
        (OnInvalidateVehicleType poolC2 0 0 stC2).sel = pr.1.index))) :=
  liveryC2_amended poolC2 0 0 stC2 (by decide)

/-- C9: a matrix click whose row index is at or beyond the populated row
count returns before touching anything: the whole window state (class,
selection, flattened list, rows) is unchanged, and no list access happens
on the early-return path. -/
theorem liveryC9_oob_click (used : Nat) (ctrl : Bool) (row : Nat) (st : LiveryState)
    (h : st.rows ≤ row) : OnClickMatrix used ctrl row st = st := by
  unfold OnClickMatrix
  rw [if_pos h]

/-- Witness for C9: clicking row 7 of a 3-row window changes nothing. -/
theorem liveryC9_oob_click_witness : OnClickMatrix usedC4 true 7 stC9 = stC9 :=
  liveryC9_oob_click usedC4 true 7 stC9 (by decide)

/-! ## Row-to-scheme translation (C4) -/

theorem rowToSchemeGo_stop {lclass used s j : Nat} (h : ¬(s ≤ j ∧ s < LS_END)) :
    rowToSchemeGo lclass used s j = j := by
  rw [rowToSchemeGo, if_neg h]

theorem rowToSchemeGo_step_true {lclass used s j : Nat} (h1 : s ≤ j) (h2 : s < LS_END)
    (hact : (liveryClassOf s == lclass && hasBit used s) = true) :
    rowToSchemeGo lclass used s j = rowToSchemeGo lclass used (s + 1) j := by
  rw [rowToSchemeGo, if_pos ⟨h1, h2⟩, hact]
  simp

theorem rowToSchemeGo_step_false {lclass used s j : Nat} (h1 : s ≤ j) (h2 : s < LS_END)
    (hact : (liveryClassOf s == lclass && hasBit used s) = false) :
    rowToSchemeGo lclass used s j = rowToSchemeGo lclass used (s + 1) (j + 1) := by
  rw [rowToSchemeGo, if_pos ⟨h1, h2⟩, hact]
  simp

/-- The walking loop lands on the k-th active scheme at or after s when
started with slack k. -/
theorem rowToSchemeGo_spec (lclass used : Nat) :
    ∀ n s j k m, s + n = LS_END → j = s + k →
      ((List.range' s n).filter
        (fun t => liveryClassOf t == lclass && hasBit used t)).get? k = some m →
      rowToSchemeGo lclass used s j = m := by
  intro n
  induction n with
  | zero =>
    intro s j k m hsn hjk hget
    simp at hget
  | succ n' ih =>
    intro s j k m hsn hjk hget
    rw [List.range'_succ] at hget
    have hs : s < LS_END := by omega
    cases hact : (liveryClassOf s == lclass && hasBit used s) with
    | true =>
      rw [@List.filter_cons_of_pos _ (fun t => liveryClassOf t == lclass && hasBit used t)
        s (List.range' (s + 1) n') hact] at hget
      cases k with
      | zero =>
        simp only [List.get?] at hget
        have hm : s = m := by simpa using hget
        subst hm
        subst hjk
        rw [rowToSchemeGo_step_true (by omega) hs hact]
        apply rowToSchemeGo_stop
        omega
      | succ k' =>
        rw [rowToSchemeGo_step_true (by omega) hs hact]
        exact ih (s + 1) j k' m (by omega) (by omega) (by simpa using hget)
    | false =>
      rw [@List.filter_cons_of_neg _ (fun t => liveryClassOf t == lclass && hasBit used t)
        s (List.range' (s + 1) n') (by simp [hact])] at hget
      rw [rowToSchemeGo_step_false (by omega) hs hact]
      exact ih (s + 1) (j + 1) k m (by omega) (by omega) hget

/-- The row-to-scheme translation of OnClick picks exactly the row-th entry
of the drawing-order scheme row list. -/
theorem rowToScheme_eq_row (lclass used row : Nat)
    (hrow : row < (schemeRows lclass used).length) :
    rowToScheme lclass used row = (schemeRows lclass used).getD row 0 := by
  have hrange : schemeRows lclass used =
      (List.range' 0 LS_END).filter
        (fun t => liveryClassOf t == lclass && hasBit used t) := by
    unfold schemeRows
    rw [List.range_eq_range']
  have hget : (schemeRows lclass used).get? row =
      some ((schemeRows lclass used).get ⟨row, hrow⟩) := List.get?_eq_get hrow
  have hspec := rowToSchemeGo_spec lclass used LS_END 0 row row
    ((schemeRows lclass used).get ⟨row, hrow⟩) (by omega) (by omega)
    (by rw [← hrange]; exact hget)
  unfold rowToScheme
  rw [hspec, List.getD_eq_get?, hget]
  rfl

/-- C4: for a scheme class, clicking row r below the populated row count
selects the r-th scheme of the drawing-order active-scheme list (walking
scheme-enum order and skipping schemes inactive for the class, identically
to DrawWidget and SetRows); ctrl toggles that scheme's bit in the selection
bitmask, otherwise the bitmask is replaced by exactly that bit. -/
theorem liveryC4_row_click (used : Nat) (ctrl : Bool) (row : Nat) (st : LiveryState)
    (hcls : st.livery_class < LC_GROUP_RAIL)
    (hrows : st.rows = (schemeRows st.livery_class used).length)
    (hrow : row < st.rows) :
    rowToScheme st.livery_class used row = (schemeRows st.livery_class used).getD row 0 ∧
    OnClickMatrix used ctrl row st =
      { st with sel := if ctrl then toggleBit st.sel (rowToScheme st.livery_class used row)
                       else 2 ^ (rowToScheme st.livery_class used row) } := by
  constructor
  · exact rowToScheme_eq_row st.livery_class used row (by omega)
  · unfold OnClickMatrix
    rw [if_neg (by omega), if_pos hcls]

/-- Witness for C4: with rail schemes 1, 5, 9 active, clicking row 1
selects scheme 5. -/
theorem liveryC4_row_click_witness :
    rowToScheme stC4.livery_class usedC4 1 = (schemeRows stC4.livery_class usedC4).getD 1 0 ∧
    OnClickMatrix usedC4 false 1 stC4 =
      { stC4 with sel := if false then toggleBit stC4.sel (rowToScheme stC4.livery_class usedC4 1)
                         else 2 ^ (rowToScheme stC4.livery_class usedC4 1) } :=
  liveryC4_row_click usedC4 false 1 stC4 (by decide) (by decide) (by decide)

/-! ## Colour dropdown masking (C5) -/

theorem usedColours_fold (local_ i : Nat) :
    ∀ (l : List Company) (acc : Nat),
      Nat.testBit
        (l.foldl (fun acc c => if c.index ≠ local_ then acc ||| 2 ^ c.colour else acc) acc) i =
          true ↔
        (Nat.testBit acc i = true ∨ ∃ c ∈ l, c.index ≠ local_ ∧ c.colour = i) := by
  intro l
  induction l with
  | nil =>
    intro acc
    simp
  | cons c cs ih =>
    intro acc
    rw [List.foldl_cons]
    by_cases hcl : c.index ≠ local_
    · rw [if_pos hcl, ih]
      constructor
      · rintro (hb | hex)
        · rw [Nat.testBit_or, Bool.or_eq_true] at hb
          rcases hb with h1 | h2
          · exact Or.inl h1
          · right
            refine ⟨c, List.mem_cons_self _ _, hcl, ?_⟩
            rw [Nat.testBit_two_pow] at h2
            exact of_decide_eq_true h2
        · obtain ⟨c', hc', h1, h2⟩ := hex
          exact Or.inr ⟨c', List.mem_cons_of_mem _ hc', h1, h2⟩
      · rintro (hb | ⟨c', hc', h1, h2⟩)
        · left
          rw [Nat.testBit_or, hb]
          simp
        · rcases List.mem_cons.mp hc' with rfl | hmem
          · left
            rw [Nat.testBit_or, Nat.testBit_two_pow]
            simp [h2]
          · exact Or.inr ⟨c', hmem, h1, h2⟩
    · rw [if_neg hcl, ih]
      constructor
      · rintro (hb | ⟨c', hc', h1, h2⟩)
        · exact Or.inl hb
        · exact Or.inr ⟨c', List.mem_cons_of_mem _ hc', h1, h2⟩
      · rintro (hb | ⟨c', hc', h1, h2⟩)
        · exact Or.inl hb
        · rcases List.mem_cons.mp hc' with rfl | hmem
          · exact absurd h1 hcl
          · exact Or.inr ⟨c', hmem, h1, h2⟩

/-- The used_colours bitmask: bit i is set exactly when masking is active
(primary slot, scheme class, DEFAULT scheme selected) and colour i is some
other company's primary colour. -/
theorem usedColours_testBit (companies : List Company) (local_ lclass sel : Nat)
    (primary : Bool) (i : Nat) :
    hasBit (usedColours companies local_ lclass sel primary) i = true ↔
      (lclass < LC_GROUP_RAIL ∧ hasBit sel LS_DEFAULT = true ∧ primary = true ∧
        ∃ c ∈ companies, c.index ≠ local_ ∧ c.colour = i) := by
  unfold usedColours hasBit
  by_cases hc : lclass < LC_GROUP_RAIL ∧ Nat.testBit sel LS_DEFAULT = true ∧ primary = true
  · rw [if_pos hc]
    rw [usedColours_fold]
    obtain ⟨h1, h2, h3⟩ := hc
    constructor
    · rintro (hb | hex)
      · rw [Nat.zero_testBit] at hb
        exact absurd hb (by simp)
      · exact ⟨h1, h2, h3, hex⟩
    · rintro ⟨_, _, _, hex⟩
      exact Or.inr hex
  · rw [if_neg hc]
    rw [Nat.zero_testBit]
    constructor
    · intro h
      exact absurd h (by simp)
    · rintro ⟨h1, h2, h3, _⟩
      exact absurd ⟨h1, h2, h3⟩ hc

/-- C5: a dropdown entry for palette colour i is masked exactly when the
primary slot of a scheme class with the DEFAULT scheme selected is being
built and colour i is already another company's primary colour, the edited
company excluded; in every other configuration no palette entry is masked.
The hypothesis local_ = window_number reflects that the dropdown widgets
are disabled (unclickable) unless the edited company is the local one. -/
theorem liveryC5_masking (companies : List Company) (pool : List Group)
    (window_number local_ lclass sel : Nat) (primary : Bool)
    (items : List DropItem) (presel : Nat)
    (hloc : local_ = window_number)
    (hrun : ShowColourDropDownMenu companies pool window_number local_ lclass sel primary
      = some (items, presel))
    (i : Nat) (hi : i < COLOUR_END) :
    (∃ it ∈ items, it.result = i ∧ it.masked = true) ↔
      (lclass < LC_GROUP_RAIL ∧ hasBit sel LS_DEFAULT = true ∧ primary = true ∧
        ∃ c ∈ companies, c.index ≠ window_number ∧ c.colour = i) := by
  rw [hloc] at hrun
  cases hfc : companies.find? (fun c => c.index == window_number) with
  | none =>
    unfold ShowColourDropDownMenu at hrun
    rw [hfc] at hrun
    simp at hrun
  | some comp =>
    cases hld : liveryAndDefault comp pool lclass sel with
    | none =>
      unfold ShowColourDropDownMenu at hrun
      rw [hfc] at hrun
      simp [hld] at hrun
    | some livdl =>
      obtain ⟨liv, dl⟩ := livdl
      unfold ShowColourDropDownMenu at hrun
      rw [hfc] at hrun
      simp only [hld, Option.some.injEq, Prod.mk.injEq] at hrun
      obtain ⟨hitems, _⟩ := hrun
      rw [← usedColours_testBit companies window_number lclass sel primary i]
      rw [← hitems]
      constructor
      · rintro ⟨it, hit, hres, hmsk⟩
        rcases List.mem_append.mp hit with hpre | hmap
        · cases dl with
          | none => simp at hpre
          | some d =>
            simp only [List.mem_singleton] at hpre
            rw [hpre] at hmsk
            simp at hmsk
        · rw [List.mem_map] at hmap
          obtain ⟨k, hk, hkeq⟩ := hmap
          rw [← hkeq] at hres hmsk
          simp only at hres hmsk
          rw [← hres]
          exact hmsk
      · intro hbit
        refine ⟨⟨i, hasBit (usedColours companies window_number lclass sel primary) i⟩,
          ?_, rfl, hbit⟩
        apply List.mem_append_right
        rw [List.mem_map]
        exact ⟨i, List.mem_range.mpr hi, rfl⟩

/-! ## The representative scheme scan (C7) -/

theorem lowestSchemeGo_stop {sel s : Nat} (h : ¬ s < LS_END) :
    lowestSchemeGo sel s = s := by
  rw [lowestSchemeGo, if_neg h]

theorem lowestSchemeGo_found {sel s : Nat} (h : s < LS_END) (hb : hasBit sel s = true) :
    lowestSchemeGo sel s = s := by
  rw [lowestSchemeGo, if_pos h, hb]
  simp

theorem lowestSchemeGo_skip {sel s : Nat} (h : s < LS_END) (hb : hasBit sel s = false) :
    lowestSchemeGo sel s = lowestSchemeGo sel (s + 1) := by
  rw [lowestSchemeGo, if_pos h, hb]
  simp

theorem lowestSchemeGo_spec (sel : Nat) :
    ∀ n s, s + n = LS_END →
      (lowestSchemeGo sel s = LS_END ∧
        (∀ k, s ≤ k → k < LS_END → hasBit sel k = false)) ∨
      (s ≤ lowestSchemeGo sel s ∧ lowestSchemeGo sel s < LS_END ∧
        hasBit sel (lowestSchemeGo sel s) = true ∧
        ∀ k, s ≤ k → k < lowestSchemeGo sel s → hasBit sel k = false) := by
  intro n
  induction n with
  | zero =>
    intro s hs
    left
    rw [lowestSchemeGo_stop (by omega)]
    exact ⟨by omega, fun k h1 h2 => by omega⟩
  | succ n' ih =>
    intro s hs
    have h : s < LS_END := by omega
    cases hb : hasBit sel s with
    | true =>
      right
      rw [lowestSchemeGo_found h hb]
      exact ⟨Nat.le_refl s, h, hb, fun k h1 h2 => by omega⟩
    | false =>
      rw [lowestSchemeGo_skip h hb]
      rcases ih (s + 1) (by omega) with ⟨he, hall⟩ | ⟨h1, h2, h3, h4⟩
      · left
        refine ⟨he, ?_⟩
        intro k hk1 hk2
        rcases Nat.eq_or_lt_of_le hk1 with rfl | hk1'
        · exact hb
        · exact hall k (by omega) hk2
      · right
        refine ⟨by omega, h2, h3, ?_⟩
        intro k hk1 hk2
        rcases Nat.eq_or_lt_of_le hk1 with rfl | hk1'
        · exact hb
        · exact h4 k (by omega) hk2

/-- For a nonempty scheme bitmask, the scan lands on the least set bit. -/
theorem lowestScheme_lowest (sel : Nat) (hne : sel ≠ 0) (hlt : sel < 2 ^ LS_END) :
    hasBit sel (lowestScheme sel) = true ∧
      ∀ k < lowestScheme sel, hasBit sel k = false := by
  rcases lowestSchemeGo_spec sel LS_END 0 (by omega) with ⟨he, hall⟩ | ⟨h1, h2, h3, h4⟩
  · exfalso
    apply hne
    apply Nat.eq_of_testBit_eq
    intro i
    rw [Nat.zero_testBit]
    by_cases hi : i < LS_END
    · exact hall i (by omega) hi
    · exact Nat.testBit_eq_false_of_lt
        (lt_of_lt_of_le hlt (Nat.pow_le_pow_right (by omega) (by omega)))
  · unfold lowestScheme
    rw [if_neg (by omega)]
    exact ⟨h3, fun k hk => h4 k (by omega) hk⟩

/-- An empty scheme bitmask falls back to the DEFAULT scheme. -/
theorem lowestScheme_zero : lowestScheme 0 = LS_DEFAULT := by
  rcases lowestSchemeGo_spec 0 LS_END 0 (by omega) with ⟨he, _⟩ | ⟨_, _, h3, _⟩
  · unfold lowestScheme
    rw [he]
    simp
  · rw [show hasBit 0 (lowestSchemeGo 0 0) = false from Nat.zero_testBit _] at h3
    exact absurd h3 (by simp)

/-- C7 as stated fails on the code: with the DEFAULT scheme as
representative (selection bitmask bit 0) and its in-use flag clear, there
is no synthetic default entry at all and the preselection is the actual
colour entry (here colour 5 < COLOUR_END), not the synthetic one, although
the in-use flag for the slot is false. -/
theorem liveryC7_counterexample :
    (ShowColourDropDownMenu companiesW [] 0 0 0 1 true).map Prod.snd = some 5 ∧
    hasBit (compEdited.livery LS_DEFAULT).in_use 0 = false ∧
    ((5 : Nat) < COLOUR_END) ∧
    (ShowColourDropDownMenu companiesW [] 0 0 0 1 true).map
      (fun pr => pr.1.any (fun it => decide (COLOUR_END ≤ it.result))) = some false := by
  have hls : lowestScheme 1 = 0 := by
    unfold lowestScheme
    rw [lowestSchemeGo_found (by decide) (by decide)]
    rfl
  have hld : liveryAndDefault compEdited [] 0 1 = some (⟨5, 6, 0⟩, none) := by
    unfold liveryAndDefault
    rw [if_pos (by decide), hls]
    rfl
  have hrun : ShowColourDropDownMenu companiesW [] 0 0 0 1 true = some (itemsC5, 5) := by
    unfold ShowColourDropDownMenu
    rw [show companiesW.find? (fun c => c.index == 0) = some compEdited from rfl]
    simp only [hld]
    rfl
  rw [hrun]
  exact ⟨rfl, by decide, by decide, by decide⟩

/-- C7 amended: the representative livery is that of the lowest set bit of
the scheme bitmask (DEFAULT when empty) for a scheme class and the selected
group's own livery for a group class; when an inherited reference livery
exists, the preselection is the synthetic default entry exactly when the
representative's in-use flag for the slot is clear, and the entry of the
representative's actual colour otherwise; when no reference exists
(DEFAULT-scheme representative) the actual colour entry is preselected
regardless of the flag. -/
theorem liveryC7_preselection (companies : List Company) (pool : List Group)
    (window_number local_ lclass sel : Nat) (primary : Bool) (comp : Company)
    (liv : Livery) (dl : Option Livery) (items : List DropItem) (presel : Nat)
    (hfc : companies.find? (fun c => c.index == window_number) = some comp)
    (hld : liveryAndDefault comp pool lclass sel = some (liv, dl))
    (hcol1 : liv.colour1 < COLOUR_END) (hcol2 : liv.colour2 < COLOUR_END)
    (hsel : sel < 2 ^ LS_END)
    (hrun : ShowColourDropDownMenu companies pool window_number local_ lclass sel primary
      = some (items, presel)) :
    (lclass < LC_GROUP_RAIL → liv = comp.livery (lowestScheme sel) ∧
      (sel = 0 → lowestScheme sel = LS_DEFAULT) ∧
      (sel ≠ 0 → hasBit sel (lowestScheme sel) = true ∧
        ∀ k < lowestScheme sel, hasBit sel k = false)) ∧
    (LC_GROUP_RAIL ≤ lclass →
      ∃ g, pool.find? (fun h => h.index == sel) = some g ∧ liv = g.livery) ∧
    (dl = none →
      presel = (if primary then liv.colour1 else liv.colour2) ∧ presel < COLOUR_END) ∧
    (∀ d, dl = some d →
      ((COLOUR_END ≤ presel) ↔ hasBit liv.in_use (if primary then 0 else 1) = false) ∧
      (hasBit liv.in_use (if primary then 0 else 1) = true →
        presel = (if primary then liv.colour1 else liv.colour2)) ∧
      (hasBit liv.in_use (if primary then 0 else 1) = false →
        presel = (if primary then d.colour1 else d.colour2) + COLOUR_END)) := by
  have hpres : dropPreselect liv dl primary = presel := by
    unfold ShowColourDropDownMenu at hrun
    rw [hfc] at hrun
    simp only [hld, Option.some.injEq, Prod.mk.injEq] at hrun
    exact hrun.2
  refine ⟨?_, ?_, ?_, ?_⟩
  · intro hcls
    unfold liveryAndDefault at hld
    rw [if_pos hcls] at hld
    simp only [Option.some.injEq, Prod.mk.injEq] at hld
    refine ⟨hld.1.symm, fun h0 => by rw [h0]; exact lowestScheme_zero,
      fun hne => lowestScheme_lowest sel hne hsel⟩
  · intro hcls
    unfold liveryAndDefault at hld
    rw [if_neg (by omega)] at hld
    cases hfg : pool.find? (fun h => h.index == sel) with
    | none =>
      rw [hfg] at hld
      simp at hld
    | some g =>
      rw [hfg] at hld
      refine ⟨g, rfl, ?_⟩
      have hld' : (if (g.parent == INVALID_GROUP) = true
          then some (g.livery, some (comp.livery LS_DEFAULT))
          else (match pool.find? (fun h => h.index == g.parent) with
                | none => (none : Option (Livery × Option Livery))
                | some pg => some (g.livery, some pg.livery))) = some (liv, dl) := hld
      by_cases hpar : (g.parent == INVALID_GROUP) = true
      · rw [if_pos hpar] at hld'
        simp only [Option.some.injEq, Prod.mk.injEq] at hld'
        exact hld'.1.symm
      · rw [if_neg hpar] at hld'
        cases hfp : pool.find? (fun h => h.index == g.parent) with
        | none =>
          rw [hfp] at hld'
          simp at hld'
        | some pg =>
          rw [hfp] at hld'
          simp only [Option.some.injEq, Prod.mk.injEq] at hld'
          exact hld'.1.symm
  · intro hdl
    subst hdl
    unfold dropPreselect at hpres
    refine ⟨hpres.symm, ?_⟩
    rw [← hpres]
    cases primary with
    | true => simpa using hcol1
    | false => simpa using hcol2
  · intro d hdl
    subst hdl
    cases hbit : hasBit liv.in_use (if primary then 0 else 1) with
    | true =>
      simp only [dropPreselect, hbit, if_true] at hpres
      refine ⟨?_, fun _ => hpres.symm, fun hcon => absurd hcon (by simp)⟩
      constructor
      · intro hge
        exfalso
        rw [← hpres] at hge
        cases primary with
        | true => simp at hge; omega
        | false => simp at hge; omega
      · intro hfalse
        exact absurd hfalse (by simp)
    | false =>
      simp only [dropPreselect, hbit] at hpres
      refine ⟨?_, fun hcon => absurd hcon (by simp), fun _ => hpres.symm⟩
      constructor
      · intro _
        rfl
      · intro _
        rw [← hpres]
        exact Nat.le_add_left COLOUR_END _

theorem liveryC5_masking_witness :
    (∃ it ∈ itemsC5, it.result = 4 ∧ it.masked = true) ∧
    ((0 : Nat) < LC_GROUP_RAIL ∧ hasBit 1 LS_DEFAULT = true ∧ (true : Bool) = true ∧
      ∃ c ∈ companiesW, c.index ≠ 0 ∧ c.colour = 4) := by
  have hls : lowestScheme 1 = 0 := by
    unfold lowestScheme
    rw [lowestSchemeGo_found (by decide) (by decide)]
    rfl
  have hld : liveryAndDefault compEdited [] 0 1 = some (⟨5, 6, 0⟩, none) := by
    unfold liveryAndDefault
    rw [if_pos (by decide), hls]
    rfl
  have hrun : ShowColourDropDownMenu companiesW [] 0 0 0 1 true = some (itemsC5, 5) := by
    unfold ShowColourDropDownMenu
    rw [show companiesW.find? (fun c => c.index == 0) = some compEdited from rfl]
    simp only [hld]
    rfl
  have hrhs : ((0 : Nat) < LC_GROUP_RAIL ∧ hasBit 1 LS_DEFAULT = true ∧
      (true : Bool) = true ∧ ∃ c ∈ companiesW, c.index ≠ 0 ∧ c.colour = 4) := by decide
  exact ⟨(liveryC5_masking companiesW [] 0 0 0 1 true itemsC5 5 rfl hrun 4
    (by decide)).mpr hrhs, hrhs⟩

theorem liveryC7_preselection_witness :
    (∃ g, poolC7.find? (fun h => h.index == 1) = some g ∧
      (⟨7, 8, 1⟩ : Livery) = g.livery) ∧
    ¬ (COLOUR_END ≤ 7) := by
  have h := liveryC7_preselection companiesW poolC7 0 0 5 1 true compEdited
    ⟨7, 8, 1⟩ (some ⟨5, 6, 0⟩) itemsC7 7 rfl rfl (by decide) (by decide) (by decide) rfl
  refine ⟨h.2.1 (by decide), ?_⟩
  intro hge
  exact absurd ((h.2.2.2 ⟨5, 6, 0⟩ rfl).1.mp hge) (by decide)

/-! ## Colour commit (C8) -/

/-- C8: committing from the dropdown on the edited (local) window: for a
scheme class a SetCompanyColour request is posted exactly for each scheme
whose selection bit is set or, with ctrl held, which belongs to the current
class and is marked used, all carrying the requested slot and the sanitised
colour, and no group command is posted; for a group class exactly one
SetGroupLivery request for the selected group is posted; in every case the
window state is returned unchanged. -/
theorem liveryC8_commit (used : Nat) (ctrl : Bool) (window_number : Nat)
    (st : LiveryState) (primary : Bool) (index : Nat) :
    (OnDropdownSelect used ctrl window_number window_number st primary index).1 = st ∧
    (st.livery_class < LC_GROUP_RAIL →
      (∀ s p i, LiveryCommand.setCompanyColour s p i ∈
          (OnDropdownSelect used ctrl window_number window_number st primary index).2 ↔
        (s < LS_END ∧
          (hasBit st.sel s = true ∨
            (ctrl = true ∧ liveryClassOf s = st.livery_class ∧ hasBit used s = true)) ∧
          p = primary ∧ i = (if COLOUR_END ≤ index then INVALID_COLOUR else index))) ∧
      (∀ gid p i, LiveryCommand.setGroupLivery gid p i ∉
          (OnDropdownSelect used ctrl window_number window_number st primary index).2)) ∧
    (LC_GROUP_RAIL ≤ st.livery_class →
      (OnDropdownSelect used ctrl window_number window_number st primary index).2 =
        [LiveryCommand.setGroupLivery st.sel primary
          (if COLOUR_END ≤ index then INVALID_COLOUR else index)]) := by
  have hrw : OnDropdownSelect used ctrl window_number window_number st primary index =
      (if st.livery_class < LC_GROUP_RAIL then
        (st, ((List.range LS_END).filter
            (fun s => hasBit st.sel s ||
              (ctrl && (liveryClassOf s == st.livery_class) && hasBit used s))).map
          (fun s => LiveryCommand.setCompanyColour s primary
            (if COLOUR_END ≤ index then INVALID_COLOUR else index)))
      else (st, [LiveryCommand.setGroupLivery st.sel primary
            (if COLOUR_END ≤ index then INVALID_COLOUR else index)])) := by
    unfold OnDropdownSelect
    rw [if_neg (by simp)]
  rw [hrw]
  refine ⟨?_, ?_, ?_⟩
  · by_cases hcls : st.livery_class < LC_GROUP_RAIL
    · rw [if_pos hcls]
    · rw [if_neg hcls]
  · intro hcls
    rw [if_pos hcls]
    refine ⟨?_, ?_⟩
    · intro s p i
      simp only [List.mem_map, List.mem_filter, List.mem_range,
        LiveryCommand.setCompanyColour.injEq, Bool.or_eq_true, Bool.and_eq_true,
        beq_iff_eq]
      constructor
      · rintro ⟨a, ⟨ha, hcond⟩, rfl, rfl, rfl⟩
        exact ⟨ha, by tauto, rfl, rfl⟩
      · rintro ⟨hs, hcond, rfl, rfl⟩
        exact ⟨s, ⟨hs, by tauto⟩, rfl, rfl, rfl⟩
    · intro gid p i hmem
      rw [List.mem_map] at hmem
      obtain ⟨a, _, h⟩ := hmem
      exact LiveryCommand.noConfusion h
  · intro hcls
    rw [if_neg (by omega)]

theorem liveryC8_commit_witness :
    (OnDropdownSelect usedC4 true 0 0 stC4 true 20).1 = stC4 ∧
    LiveryCommand.setCompanyColour 1 true INVALID_COLOUR ∈
      (OnDropdownSelect usedC4 true 0 0 stC4 true 20).2 := by
  have h := liveryC8_commit usedC4 true 0 stC4 true 20
  refine ⟨h.1, ?_⟩
  exact ((h.2.1 (by decide)).1 1 true INVALID_COLOUR).mpr
    ⟨by decide, Or.inr ⟨rfl, by decide, by decide⟩, rfl, by decide⟩

end OTTD
